import Mathlib

/-!
# ignis-vmm: microVM pools, discovery and teardown

A shallow embedding of the pool manager, language discovery, the pool filler,
the VM factory, the boot probe and the teardown sequence of the ignis-vmm host
program (`pool.go`, `vm.go`, `vmm.go`, `main.go`, `options.go`), with the
properties of its specification stated and proved over the embedding.

Go strings are sequences of bytes; they are embedded as lists of characters,
one list element per element of the Go string.
-/

namespace Ignis

/-! ## Strings (package `strings`, `strconv`) -/

/-- A Go string: a finite sequence of characters. -/
abbrev GoString := List Char

/-- Go `strings.HasPrefix(s, prefix)`:
`len(s) >= len(prefix) && s[:len(prefix)] == prefix`. -/
def HasPrefix (s pre : GoString) : Bool :=
  decide (pre.length ≤ s.length) && (s.take pre.length == pre)

/-- Go `strings.HasSuffix(s, suffix)`:
`len(s) >= len(suffix) && s[len(s)-len(suffix):] == suffix`. -/
def HasSuffix (s suf : GoString) : Bool :=
  decide (suf.length ≤ s.length) && (s.drop (s.length - suf.length) == suf)

/-- Go `strings.TrimPrefix(s, prefix)`. -/
def TrimPrefix (s pre : GoString) : GoString :=
  if HasPrefix s pre then s.drop pre.length else s

/-- Go `strings.TrimSuffix(s, suffix)`. -/
def TrimSuffix (s suf : GoString) : GoString :=
  if HasSuffix s suf then s.take (s.length - suf.length) else s

/-! ## Language discovery (`pool.go`, `discoverAvailableLanguages`) -/

/-- What `discoverAvailableLanguages` reads of an `os.FileInfo`. -/
structure FileInfo where
  Name : GoString
  IsDir : Bool
  deriving DecidableEq, Repr

/-- The literal `"rootfs-"`. -/
def rootfsPrefix : GoString := "rootfs-".toList

/-- The literal `".ext4"`. -/
def ext4Suffix : GoString := ".ext4".toList

/-- The message of the error returned when no image is found. -/
def errNoRootfs : GoString := "no rootfs images found in agent directory".toList

/-- The body of the `for _, file := range files` loop: one entry, the
languages collected so far. -/
def discoverStep (languages : List GoString) (file : FileInfo) : List GoString :=
  if file.IsDir then languages
  else if HasPrefix file.Name rootfsPrefix && HasSuffix file.Name ext4Suffix then
    languages ++ [TrimSuffix (TrimPrefix file.Name rootfsPrefix) ext4Suffix]
  else languages

/-- Embedding of `discoverAvailableLanguages`; its argument is what
`ioutil.ReadDir("agent")` returned. -/
def discoverAvailableLanguages (readDir : Except GoString (List FileInfo)) :
    Except GoString (List GoString) :=
  match readDir with
  | .error err => .error ("failed to read agent directory: ".toList ++ err)
  | .ok files =>
    let languages := files.foldl discoverStep []
    if languages.length = 0 then .error errNoRootfs else .ok languages

/-- An entry yields the tag `t`: it is not a directory and its name is
`rootfs-<t>.ext4` (the specification's words). -/
def YieldsTag (f : FileInfo) (t : GoString) : Prop :=
  f.IsDir = false ∧ f.Name = rootfsPrefix ++ t ++ ext4Suffix

/-- The tags of a listing, in listing order, as the specification words it:
an entry that yields a tag contributes it, any other entry contributes
nothing. -/
inductive ListingTags : List FileInfo → List GoString → Prop
  | nil : ListingTags [] []
  | tag {f : FileInfo} {t : GoString} {fs : List FileInfo} {ts : List GoString} :
      YieldsTag f t → ListingTags fs ts → ListingTags (f :: fs) (t :: ts)
  | skip {f : FileInfo} {fs : List FileInfo} {ts : List GoString} :
      (∀ t, ¬ YieldsTag f t) → ListingTags fs ts → ListingTags (f :: fs) ts

/-! ## Pool manager (`pool.go`, `LanguagePoolManager`) -/

/-- A Go channel value `chan runningFirecracker`: a reference to a channel
object. `id` is the identity of the object (two `make` calls never give the
same one), `cap` its buffer capacity. -/
structure Chan where
  id : Nat
  cap : Nat
  deriving DecidableEq, Repr

/-- Go `make(chan runningFirecracker, size)`: panics (`none`, "makechan: size
out of range") on a negative size and on a size above `limit`, the largest
buffer the runtime makes for this element type (on the Go runtime,
`(maxAlloc - hchanSize) / unsafe.Sizeof(runningFirecracker{})`); `fresh` is
the identity the runtime gives the new channel. Exhaustion of memory, which
ends the process at any allocation, is outside the model here as everywhere
else. -/
def makeChan (limit : Nat) (fresh : Nat) (size : Int) : Option Chan :=
  if size < 0 ∨ (limit : Int) < size then none else some ⟨fresh, size.toNat⟩

/-- The `pools` map of `LanguagePoolManager` (the mutex is not modelled: the
operations below are each one critical section). -/
structure LanguagePoolManager where
  pools : GoString → Option Chan

/-- Embedding of `NewLanguagePoolManager`: the empty map. -/
def NewLanguagePoolManager : LanguagePoolManager := ⟨fun _ => none⟩

/-- The message of the error `GetPool` returns. -/
def errNoPool (language : GoString) : GoString :=
  "no pool found for language: ".toList ++ language

/-- Embedding of `LanguagePoolManager.GetPool`: `(pool, nil)` is `.ok pool`,
`(nil, err)` is `.error` with the message of `err`. -/
def GetPool (lpm : LanguagePoolManager) (language : GoString) : Except GoString Chan :=
  match lpm.pools language with
  | none => .error (errNoPool language)
  | some pool => .ok pool

/-- Embedding of `LanguagePoolManager.AddPool` on a runtime whose channel
limit is `limit`. The result is `none` when the call panics (in `make`); the
map is then as it was, the assignment never having run. The log line of a
creation is not part of the manager and is left out. -/
def AddPool (limit : Nat) (lpm : LanguagePoolManager) (language : GoString) (poolSize : Int)
    (fresh : Nat) : Option LanguagePoolManager :=
  match lpm.pools language with
  | some _ => some lpm
  | none =>
    match makeChan limit fresh poolSize with
    | none => none
    | some ch => some ⟨fun l => if l = language then some ch else lpm.pools l⟩

/-- A sequence of `AddPool` calls, the `i`-th call drawing channel identity
`fresh + i`; `none` when one of them panics. -/
def addPools (limit : Nat) :
    List (GoString × Int) → Nat → LanguagePoolManager → Option LanguagePoolManager
  | [], _, lpm => some lpm
  | (language, size) :: rest, fresh, lpm =>
    match AddPool limit lpm language size fresh with
    | none => none
    | some lpm1 => addPools limit rest (fresh + 1) lpm1

/-- The channel that the first call with language `l` in a sequence of
`AddPool` calls makes (the claim's words): its identity is the one drawn by
that call, its capacity the one passed to it; `none` when no call names `l`. -/
def firstPool : List (GoString × Int) → Nat → GoString → Option Chan
  | [], _, _ => none
  | (language, size) :: rest, fresh, l =>
    if language = l then some ⟨fresh, size.toNat⟩ else firstPool rest (fresh + 1) l

/-- The constant `poolSize` of `main`. -/
def poolSize : Int := 1

/-- The startup loop of `main` (`for _, language := range languages`): adds
the pool, looks it up (`pool, _ := poolManager.GetPool(language)`, a nil
channel when the lookup fails) and starts the filler on it. The result is the
manager and the fillers started, each with its language and channel. -/
def startupLoop (limit : Nat) : List GoString → Nat → LanguagePoolManager →
    List (GoString × Option Chan) → Option (LanguagePoolManager × List (GoString × Option Chan))
  | [], _, lpm, fillers => some (lpm, fillers)
  | language :: rest, fresh, lpm, fillers =>
    match AddPool limit lpm language poolSize fresh with
    | none => none
    | some lpm1 =>
      let pool := match GetPool lpm1 language with
        | .ok ch => some ch
        | .error _ => none
      startupLoop limit rest (fresh + 1) lpm1 (fillers ++ [(language, pool)])

/-- The language `"go"`. -/
def langGo : GoString := "go".toList

/-- A channel limit for the evaluations below. -/
def sampleLimit : Nat := 2 ^ 32

/-- The manager after `AddPool("go", 1)` on a fresh one. -/
def managerGoOne : LanguagePoolManager :=
  ⟨fun l => if l = langGo then some ⟨0, 1⟩ else none⟩

/-- A manager that already holds a pool of capacity 5 for `"go"`. -/
def managerWithGo : LanguagePoolManager :=
  ⟨fun l => if l = langGo then some ⟨0, 5⟩ else none⟩

/-! ## Socket files (`options.go`, `getSocketPath`; `main.go`, `deleteVMMSockets`) -/

/-- The decimal digit `byte('0' + u)`. -/
def digitChar (u : Nat) : Char := Char.ofNat ('0'.toNat + u)

/-- The digit loop of Go `strconv.FormatInt` in base 10
(`for u >= 10 { a[i] = '0' + u%10; u /= 10 }; a[i] = '0' + u`), the digits
written in front of `acc`. The first argument bounds the number of rounds. -/
def formatDigits : Nat → Nat → GoString → GoString
  | 0, u, acc => digitChar u :: acc
  | fuel + 1, u, acc =>
    if u < 10 then digitChar u :: acc
    else formatDigits fuel (u / 10) (digitChar (u % 10) :: acc)

/-- Go `strconv.Itoa(i)`, which is also what `fmt.Sprintf("%d", i)` prints:
the decimal digits of `|i|`, after a `-` when `i` is negative. -/
def Itoa (i : Int) : GoString :=
  if i < 0 then '-' :: formatDigits i.natAbs i.natAbs []
  else formatDigits i.natAbs i.natAbs []

/-- Go `strings.Join(elems, sep)`. -/
def stringsJoin (elems : List GoString) (sep : GoString) : GoString :=
  sep.intercalate elems

/-- The path of an entry directly under a directory: `filepath.Join(dir, name)`
for a `name` that is one path element, as directory entries and the socket
file names are. -/
structure Path where
  dir : GoString
  base : GoString
  deriving DecidableEq, Repr

/-- Go `filepath.Join(dir, name)` for a one-element `name`. -/
def filepathJoin (dir name : GoString) : Path := ⟨dir, name⟩

/-- The Go expression `full + s` on such a path: `s` extends the last element. -/
def Path.plus (full : Path) (s : GoString) : Path := ⟨full.dir, full.base ++ s⟩

/-- The local `filename` of `getSocketPath`:
`strings.Join([]string{".firecracker.sock", strconv.Itoa(os.Getpid()), vmmID}, "-")`. -/
def socketFileName (pid : Int) (vmmID : GoString) : GoString :=
  stringsJoin [".firecracker.sock".toList, Itoa pid, vmmID] "-".toList

/-- Embedding of `getSocketPath`; `tempDir` is `os.TempDir()` and `pid` is
`os.Getpid()`. -/
def getSocketPath (tempDir : GoString) (pid : Int) (vmmID : GoString) : Path :=
  filepathJoin tempDir (socketFileName pid vmmID)

/-- The local `prefix` of `deleteVMMSockets`:
`fmt.Sprintf(".firecracker.sock-%d-", os.Getpid())`. -/
def socketPrefix (pid : Int) : GoString :=
  ".firecracker.sock-".toList ++ Itoa pid ++ "-".toList

/-- The literal `".log"`. -/
def logSuffix : GoString := ".log".toList

/-- The body of the loop of `deleteVMMSockets`: the paths handed to `os.Remove`
so far, one entry. -/
def deleteStep (pid : Int) (tempDir : GoString) (removed : List Path) (e : FileInfo) :
    List Path :=
  let name := e.Name
  if HasPrefix name (socketPrefix pid) then
    let full := filepathJoin tempDir name
    let removed := removed ++ [full]
    if !HasSuffix name logSuffix then removed ++ [full.plus logSuffix] else removed
  else removed

/-- Embedding of `deleteVMMSockets`: the paths it hands to `os.Remove`, in
order. `readDir` is what `ioutil.ReadDir(tempDir)` returned; on an error
nothing is removed. -/
def deleteVMMSockets (pid : Int) (tempDir : GoString)
    (readDir : Except GoString (List FileInfo)) : List Path :=
  match readDir with
  | .error _ => []
  | .ok entries => entries.foldl (deleteStep pid tempDir) []

/-! ## VM handle and teardown (`main.go`, `runningFirecracker`; `vm.go`, `shutDown`) -/

/-- What the host program reads of a `runningFirecracker`: the id, the
address, `machine.Cfg.SocketPath` and the cancel function of the VMM scope
(`none` is a nil `vmmCancel`, `some c` cancels scope `c`). -/
structure runningFirecracker where
  vmmID : GoString
  ip : GoString
  socketPath : Path
  vmmCancel : Option Nat
  deriving DecidableEq, Repr

/-- A Go `error` as the teardown reads it: its message, `os.IsNotExist(err)`
and `errors.Is(err, context.DeadlineExceeded)`. -/
structure GoError where
  msg : GoString
  isNotExist : Bool
  isDeadlineExceeded : Bool
  deriving DecidableEq, Repr

/-- Log levels of logrus. -/
inductive Level
  | debug | info | warn | error
  deriving DecidableEq, Repr

/-- What the lifecycle code does to the world, in order: calls on the machine,
file removals, the health request, sleeps (in nanoseconds), the cancellation
of a scope, log lines. -/
inductive Effect
  | machineShutdown
  | machineWait
  | machineStopVMM
  | osRemove (path : Path)
  | httpGet (ip : GoString)
  | sleep (ns : Nat)
  | cancel (scope : Nat)
  | log (level : Level) (msg : GoString) (err : Option GoError)
  deriving DecidableEq, Repr

/-- The outcomes of the calls `shutDown` makes: the error (or `none`) of
`machine.Shutdown`, `machine.Wait`, `machine.StopVMM`, of the removal of the
socket, and of the `attempt`-th removal of the rootfs. -/
structure TeardownEnv where
  shutdownErr : Option GoError
  waitErr : Option GoError
  stopErr : Option GoError
  removeSocket : Option GoError
  removeRootfs : Nat → Option GoError

/-- Go `time.Millisecond`, in nanoseconds. -/
def Millisecond : Nat := 1000000

/-- Go `time.Second`, in nanoseconds. -/
def Second : Nat := 1000 * Millisecond

/-- Go `strings.Contains(s, substr)`. -/
def stringsContains (s substr : GoString) : Bool := decide (substr <:+: s)

/-- The per-VM rootfs `"/tmp/rootfs-" + vmmID + ".ext4"`. -/
def rootfsPathOf (vmmID : GoString) : Path :=
  ⟨"/tmp".toList, "rootfs-".toList ++ vmmID ++ ".ext4".toList⟩

/-- Step 1 of `shutDown`: graceful stop (under a 3 s timeout). -/
def stepGracefulStop (env : TeardownEnv) : List Effect :=
  Effect.machineShutdown ::
    match env.shutdownErr with
    | some err =>
      [.log .warn "Graceful shutdown failed; will force stop if still running".toList (some err)]
    | none => []

/-- The `ignorable` test of step 2. -/
def ignorableWaitError (err : GoError) : Bool :=
  stringsContains err.msg "signal: terminated".toList ||
  stringsContains err.msg "failed to remove netns parent dir".toList ||
  stringsContains err.msg "plugin type=\"tc-redirect-tap\"".toList ||
  stringsContains err.msg "CNI network list \"fcnet\"".toList ||
  err.isDeadlineExceeded

/-- Step 2 of `shutDown`: wait for the VMM to exit (under a 7 s timeout). -/
def stepWait (env : TeardownEnv) : List Effect :=
  Effect.machineWait ::
    match env.waitErr with
    | some err =>
      if ignorableWaitError err then
        [.log .debug "Ignoring non-fatal wait error".toList (some err)]
      else [.log .warn "Wait returned error".toList (some err)]
    | none => []

/-- Step 3 of `shutDown`: force stop. -/
def stepStopVMM (env : TeardownEnv) : List Effect :=
  Effect.machineStopVMM ::
    match env.stopErr with
    | some err =>
      [.log .debug "StopVMM returned error (likely already stopped)".toList (some err)]
    | none => []

/-- Step 4 of `shutDown`: remove the socket. -/
def stepRemoveSocket (vm : runningFirecracker) (env : TeardownEnv) : List Effect :=
  Effect.osRemove vm.socketPath ::
    match env.removeSocket with
    | some err =>
      if !err.isNotExist then
        [.log .error "Failed to delete firecracker socket".toList (some err)]
      else []
    | none => []

/-- The loop of step 5, `for attempt := 1; attempt <= 30; attempt++`, from the
test of its condition on: the effects of the remaining rounds and the final
`lastErr`. The first argument bounds the number of rounds; `none` when the
bound is reached before the loop ends. -/
def removeRootfsLoop (rootfsPath : Path) (remove : Nat → Option GoError) :
    Nat → Nat → Option GoError → Option (List Effect × Option GoError)
  | 0, _, _ => none
  | fuel + 1, attempt, lastErr =>
    if attempt ≤ 30 then
      match remove attempt with
      | some err =>
        if err.isNotExist then some ([.osRemove rootfsPath], none)
        else
          match removeRootfsLoop rootfsPath remove fuel (attempt + 1) (some err) with
          | none => none
          | some (effects, last) =>
            some (.osRemove rootfsPath ::
              .log .debug ("Failed to delete firecracker rootfs (attempt ".toList ++
                Itoa attempt ++ "/30)".toList) (some err) ::
              .sleep (attempt * 100 * Millisecond) :: effects, last)
      | none => some ([.osRemove rootfsPath], none)
    else some ([], lastErr)

/-- The end of step 5: `if lastErr != nil { log ... }`. -/
def rootfsReport (lastErr : Option GoError) : List Effect :=
  match lastErr with
  | some err =>
    [.log .error "Failed to delete firecracker rootfs after retries".toList (some err)]
  | none => []

/-- Step 5 of `shutDown`: the removal loop and the report of its failure. -/
def stepRemoveRootfs (vm : runningFirecracker) (env : TeardownEnv) : Option (List Effect) :=
  match removeRootfsLoop (rootfsPathOf vm.vmmID) env.removeRootfs 31 1 none with
  | none => none
  | some (effects, lastErr) => some (effects ++ rootfsReport lastErr)

/-- Step 6 of `shutDown`: `if vm.vmmCancel != nil { vm.vmmCancel() }`. -/
def stepCancel (vm : runningFirecracker) : List Effect :=
  match vm.vmmCancel with
  | some scope => [.cancel scope]
  | none => []

/-- The three log lines `shutDown` opens with. -/
def shutDownAnnounce : List Effect :=
  [.log .info "stopping".toList none, .log .info "deleting rootfs".toList none,
   .log .info "deleting socket".toList none]

/-- Embedding of `runningFirecracker.shutDown`: the effects of a call, in
order. The function has no result in Go; `none` here would be a call that
does not return. The deferred `shutdownCancel()` and `waitCancel()` only
release the two timeout contexts made inside the call and are left out. -/
def shutDown (vm : runningFirecracker) (env : TeardownEnv) : Option (List Effect) :=
  match stepRemoveRootfs vm env with
  | none => none
  | some rootfs =>
    some (shutDownAnnounce ++ stepGracefulStop env ++ stepWait env ++ stepStopVMM env ++
      stepRemoveSocket vm env ++ rootfs ++ stepCancel vm)

/-- The calls among the effects: what remains when log lines and sleeps are
dropped. -/
def callsOf (effects : List Effect) : List Effect :=
  effects.filter fun e =>
    match e with
    | .log _ _ _ => false
    | .sleep _ => false
    | _ => true

/-- The log lines at error level among the effects. -/
def errorLogsOf (effects : List Effect) : List Effect :=
  effects.filter fun e =>
    match e with
    | .log .error _ _ => true
    | _ => false

/-- The `attempt`-th removal fails with an error other than missing-file. -/
def RemoveFails (remove : Nat → Option GoError) (attempt : Nat) : Prop :=
  ∃ err, remove attempt = some err ∧ err.isNotExist = false

/-- The total time slept, in nanoseconds. -/
def sleptOf : List Effect → Nat
  | [] => 0
  | .sleep ns :: rest => ns + sleptOf rest
  | _ :: rest => sleptOf rest

/-- An error of `os.Remove` other than missing-file. -/
def busyError : GoError := ⟨"device or resource busy".toList, false, false⟩

/-- A handle as the factory returns it. -/
def sampleVM : runningFirecracker :=
  ⟨"vm1".toList, "10.0.0.2".toList, ⟨"/tmp".toList, ".firecracker.sock-7-vm1".toList⟩, some 0⟩

/-- An environment whose rootfs removal fails `n` times and then succeeds. -/
def failsThenOk (n : Nat) : TeardownEnv :=
  ⟨none, none, none, none, fun attempt => if attempt ≤ n then some busyError else none⟩

/-! ## Boot probe (`vm.go`, `waitForVMToBoot`) -/

/-- The outcome of `req.Get(".../health")`: a transport error, or a response
with its status code. -/
inductive ProbeResult
  | failed (err : GoError)
  | status (code : Int)
  deriving DecidableEq, Repr

/-- Embedding of `waitForVMToBoot` from the top of its loop, in round
`round`: the effects and the returned error (`none` is a nil error). Each
request runs under the one-second timeout set by `req.SetTimeout`.
`ctxDone r` tells whether `ctx.Done()` is ready at the select of round `r`,
`get r` is the outcome of the request of round `r`, `ctxErr` is `ctx.Err()`.
The first argument bounds the number of rounds; the result is `none` when the
probe is still polling after that many. -/
def waitForVMToBoot (ctxDone : Nat → Bool) (get : Nat → ProbeResult) (ctxErr : GoError)
    (ip : GoString) : Nat → Nat → Option (List Effect × Option GoError)
  | 0, _ => none
  | fuel + 1, round =>
    if ctxDone round then some ([], some ctxErr)
    else
      match get round with
      | .failed err =>
        match waitForVMToBoot ctxDone get ctxErr ip fuel (round + 1) with
        | none => none
        | some (effects, res) =>
          some (.httpGet ip :: .log .info "VM not ready yet".toList (some err) ::
            .sleep Second :: effects, res)
      | .status code =>
        if code ≠ 200 then
          match waitForVMToBoot ctxDone get ctxErr ip fuel (round + 1) with
          | none => none
          | some (effects, res) =>
            some (.httpGet ip :: .sleep Second :: .log .info "VM not ready yet".toList none ::
              .sleep Second :: effects, res)
        else some ([.httpGet ip, .log .info "VM agent ready".toList none], none)

/-- The health request answers 503 in round 0 and 200 from round 1 on. -/
def notReadyOnce (round : Nat) : ProbeResult :=
  if round = 0 then .status 503 else .status 200

/-- The health request fails in transport in round 0 and answers 200 from
round 1 on. -/
def unreachableOnce (round : Nat) : ProbeResult :=
  if round = 0 then .failed ⟨"connection refused".toList, false, false⟩ else .status 200

/-- The error of a context whose deadline passed. -/
def deadlineExceeded : GoError := ⟨"context deadline exceeded".toList, false, true⟩

/-! ## Pool filler (`pool.go`, `fillLanguageVMPool`) and its pool -/

/-- Where the filler stands in `fillLanguageVMPool`. -/
inductive FillerPC
  /-- At the `select` that heads the loop. -/
  | top
  /-- `createAndStartVMForLanguage` returned `vm`; in `waitForVMToBoot`. -/
  | booting (vm : runningFirecracker)
  /-- At the inner `select`, with `pool <- *vm` pending. -/
  | offering (vm : runningFirecracker)
  /-- Returned. -/
  | stopped
  deriving DecidableEq, Repr

/-- One language's pool, its filler and its dispatchers.
`pool` is the buffer of the channel, oldest first, and `cap` its capacity;
`cancelled` tells whether `ctx.Done()` is closed; `waiting` counts the
dispatchers blocked on the take and `holding` lists the VMs dispatchers hold.
The last four fields record history: the VMs `createAndStartVMForLanguage`
returned to the filler, those the filler sent into the channel, and those shut
down by the filler and by dispatchers. -/
structure PoolSys where
  cap : Nat
  pool : List runningFirecracker
  cancelled : Bool
  filler : FillerPC
  waiting : Nat
  holding : List runningFirecracker
  created : List runningFirecracker
  offered : List runningFirecracker
  fillerShut : List runningFirecracker
  dispatcherShut : List runningFirecracker
  deriving DecidableEq, Repr

/-- What can happen next: an outcome of a call of the filler, a choice of the
scheduler, or a step of a dispatcher. -/
inductive Action
  /-- The parent scope is cancelled. -/
  | cancel
  /-- Loop head, `ctx` not done: `createAndStartVMForLanguage` returns `vm`. -/
  | createOk (vm : runningFirecracker)
  /-- Loop head, `ctx` not done: the create fails; sleep 1 s, `continue`. -/
  | createErr
  /-- Loop head, `ctx` done: `return`. -/
  | fillerExit
  /-- `waitForVMToBoot` returns nil. -/
  | bootOk
  /-- `waitForVMToBoot` returns an error: `vm.shutDown()`, `continue`. -/
  | bootErr
  /-- `pool <- *vm` proceeds into a free slot of the buffer. -/
  | offerSend
  /-- `pool <- *vm` proceeds by handing the VM to a dispatcher blocked on the
  take of an empty channel. -/
  | offerHandoff
  /-- The inner `select` takes `<-ctx.Done()`: `vm.shutDown()`, `return`. -/
  | offerCancel
  /-- A job for the language arrives: a dispatcher starts and blocks on the take. -/
  | jobArrive
  /-- A blocked dispatcher takes the oldest VM of the buffer. -/
  | take
  /-- A blocked dispatcher sees the cancellation and gives up. -/
  | abort
  /-- A dispatcher is done with `vm`: it shuts the VM down. -/
  | release (vm : runningFirecracker)
  deriving DecidableEq, Repr

/-- Embedding of `fillLanguageVMPool` as the transitions of the filler, one
per outcome of each call and of each `select` of its loop; `none` when the
action is not possible in the state. The one-second sleep after a failed
create leaves the state as it is. -/
def fillLanguageVMPool (s : PoolSys) : Action → Option PoolSys
  | .createOk vm =>
    match s.filler with
    | .top => if s.cancelled then none
      else some { s with filler := .booting vm, created := s.created ++ [vm] }
    | _ => none
  | .createErr =>
    match s.filler with
    | .top => if s.cancelled then none else some s
    | _ => none
  | .fillerExit =>
    match s.filler with
    | .top => if s.cancelled then some { s with filler := .stopped } else none
    | _ => none
  | .bootOk =>
    match s.filler with
    | .booting vm => some { s with filler := .offering vm }
    | _ => none
  | .bootErr =>
    match s.filler with
    | .booting vm => some { s with filler := .top, fillerShut := s.fillerShut ++ [vm] }
    | _ => none
  | .offerSend =>
    match s.filler with
    | .offering vm =>
      if s.pool.length < s.cap then
        some { s with filler := .top, pool := s.pool ++ [vm], offered := s.offered ++ [vm] }
      else none
    | _ => none
  | .offerHandoff =>
    match s.filler with
    | .offering vm =>
      if s.pool = [] ∧ 0 < s.waiting then
        some { s with filler := .top, waiting := s.waiting - 1, holding := s.holding ++ [vm],
                      offered := s.offered ++ [vm] }
      else none
    | _ => none
  | .offerCancel =>
    match s.filler with
    | .offering vm =>
      if s.cancelled then
        some { s with filler := .stopped, fillerShut := s.fillerShut ++ [vm] }
      else none
    | _ => none
  | _ => none

/-- Modelled from the spec: the job dispatcher (`job.run`, started by `main`
for each job, is not among the sources). Per §4.6 a dispatcher takes a VM
from the pool of the job's language, blocking until one is there, and a
cancellation aborts the wait; when the job is done it shuts the VM down; no VM
is reused. -/
def dispatcherStep (s : PoolSys) : Action → Option PoolSys
  | .jobArrive => some { s with waiting := s.waiting + 1 }
  | .take =>
    match s.pool with
    | vm :: rest =>
      if 0 < s.waiting then
        some { s with pool := rest, waiting := s.waiting - 1, holding := s.holding ++ [vm] }
      else none
    | [] => none
  | .abort =>
    if s.cancelled ∧ 0 < s.waiting then some { s with waiting := s.waiting - 1 } else none
  | .release vm =>
    if vm ∈ s.holding then
      some { s with holding := s.holding.erase vm, dispatcherShut := s.dispatcherShut ++ [vm] }
    else none
  | _ => none

/-- One step of the system. -/
def step (s : PoolSys) (a : Action) : Option PoolSys :=
  match a with
  | .cancel => some { s with cancelled := true }
  | .jobArrive | .take | .abort | .release _ => dispatcherStep s a
  | _ => fillLanguageVMPool s a

/-- A run: the actions in order, from a state; `none` if one is not possible. -/
def run : List Action → PoolSys → Option PoolSys
  | [], s => some s
  | a :: rest, s =>
    match step s a with
    | none => none
    | some s1 => run rest s1

/-- The state in which `main` starts the filler on a pool of capacity `cap`:
`go fillLanguageVMPool(ctx, language, pool)`. -/
def startState (cap : Nat) : PoolSys :=
  { cap := cap, pool := [], cancelled := false, filler := .top, waiting := 0, holding := [],
    created := [], offered := [], fillerShut := [], dispatcherShut := [] }

/-- The number of VMs the filler has in hand: 0 or 1. -/
def fillerInHand (s : PoolSys) : Nat :=
  match s.filler with
  | .booting _ => 1
  | .offering _ => 1
  | _ => 0

/-- The number of live VMs: created and not yet shut down. -/
def liveVMs (s : PoolSys) : Nat :=
  s.created.length - (s.fillerShut.length + s.dispatcherShut.length)

/-- The number of in-flight dispatchers: blocked on the take or holding a VM. -/
def inFlight (s : PoolSys) : Nat := s.waiting + s.holding.length

/-- A second handle. -/
def sampleVM2 : runningFirecracker :=
  ⟨"vm2".toList, "10.0.0.3".toList, ⟨"/tmp".toList, ".firecracker.sock-7-vm2".toList⟩, some 1⟩

/-- The state after a job arrived, a VM was created, booted and handed to the
waiting dispatcher, and a second VM was created. -/
def stateAfterHandoff : PoolSys :=
  { cap := 1, pool := [], cancelled := false, filler := .booting sampleVM2, waiting := 0,
    holding := [sampleVM], created := [sampleVM, sampleVM2], offered := [sampleVM],
    fillerShut := [], dispatcherShut := [] }

/-! ## VM factory (`vmm.go`, `copyFile`, `createAndStartVMForLanguage`) -/

/-- The files of the host: the content of the file at each path, `none` where
there is no file. -/
abbrev FileSys := Path → Option GoString

/-- The host files after the file at `p` was given the content `content`. -/
def writeFile (fs : FileSys) (p : Path) (content : GoString) : FileSys :=
  fun q => if q = p then some content else fs q

/-- Embedding of `getRootfsPath`:
`filepath.Join("agent", fmt.Sprintf("rootfs-%s.ext4", language))`. -/
def getRootfsPath (language : GoString) : Path :=
  filepathJoin "agent".toList ("rootfs-".toList ++ language ++ ".ext4".toList)

/-- What `os.Stat` reports of the VMM binary: `IsDir()` and `Mode()`. -/
structure FileStat where
  isDir : Bool
  mode : Nat
  deriving DecidableEq, Repr

/-- The outcomes of the calls `createAndStartVMForLanguage` makes.
`vmmID` is `xid.New().String()`; `openErr`, `createErr` and `syncErr` are the
errors (or `none`) of `os.Open` on an existing source, of `os.Create` and of
`out.Sync()`; `copyErr` is `none` when `io.Copy` copies everything and
`some (n, err)` when it fails with `err` after writing `n` bytes;
`firecrackerBinary` is `os.Getenv("FIRECRACKER_BINARY")` and `statBinary` the
result of `os.Stat` on the binary; `scope` is the scope `context.WithCancel`
makes; `newMachineErr` and `startErr` are the errors of `firecracker.NewMachine`
and `m.Start`; `ip` is the address in the machine's network configuration;
`tempDir` and `pid` are `os.TempDir()` and `os.Getpid()`. -/
structure FactoryEnv where
  vmmID : GoString
  openErr : Option GoError
  createErr : Option GoError
  copyErr : Option (Nat × GoError)
  syncErr : Option GoError
  firecrackerBinary : GoString
  statBinary : Except GoError FileStat
  scope : Nat
  newMachineErr : Option GoError
  startErr : Option GoError
  ip : GoString
  tempDir : GoString
  pid : Int

/-- The error of `os.Open` on a path where there is no file. -/
def errOpenNotExist : GoError := ⟨"open: no such file or directory".toList, true, false⟩

/-- Embedding of `copyFile`: the returned error (`none` is nil) and the host
files afterwards. `os.Create` makes `dst` an empty file; `io.Copy` then
writes the content of `src` into it, or only its first `n` bytes when it
fails. The error of the deferred `out.Close()` is assigned to the local `err`
after the result is set and never reaches the caller. -/
def copyFile (fs : FileSys) (env : FactoryEnv) (src dst : Path) : Option GoError × FileSys :=
  match fs src with
  | none => (some errOpenNotExist, fs)
  | some _ =>
    match env.openErr with
    | some err => (some err, fs)
    | none =>
      match env.createErr with
      | some err => (some err, fs)
      | none =>
        let created := writeFile fs dst []
        let content := (created src).getD []
        match env.copyErr with
        | some (n, err) => (some err, writeFile fs dst (content.take n))
        | none => (env.syncErr, writeFile fs dst content)

/-- The errors `createAndStartVMForLanguage` returns, one per `return nil,
fmt.Errorf(...)`, with the values the message is formatted from. -/
inductive CreateError
  /-- `"rootfs for language %s not found: %s"`. -/
  | rootfsNotFound (language : GoString) (baseRootFS : Path)
  /-- `"failed to prepare rootfs for language %s: %w"`. -/
  | prepareRootfs (language : GoString) (err : GoError)
  /-- `"binary %q does not exist: %v"`. -/
  | binaryMissing (binary : GoString) (err : GoError)
  /-- `"failed to stat binary, %q: %v"`. -/
  | statBinary (binary : GoString) (err : GoError)
  /-- `"binary, %q, is a directory"`. -/
  | binaryIsDir (binary : GoString)
  /-- `"binary, %q, is not executable. Check permissions of binary"`. -/
  | binaryNotExecutable (binary : GoString)
  /-- `"failed creating machine: %s"`. -/
  | creatingMachine (err : GoError)
  /-- `"failed to start machine: %v"`. -/
  | startingMachine (err : GoError)
  deriving DecidableEq, Repr

/-- What a call of `createAndStartVMForLanguage` leaves: the returned handle or
error, the host files, and the effects of the call (cancellations, log lines). -/
structure FactoryResult where
  result : Except CreateError runningFirecracker
  fs : FileSys
  effects : List Effect

/-- The fallback path of the VMM binary. -/
def defaultFirecrackerBinary : GoString := "/home/user/.local/bin/firecracker".toList

/-- Embedding of `createAndStartVMForLanguage` on the host files `fs`.
`getFirecrackerConfig` never returns an error, so its error branch is left
out; the files the VMM keeps for itself (socket, log) are not among the host
files tracked here. -/
def createAndStartVMForLanguage (fs : FileSys) (env : FactoryEnv) (language : GoString) :
    FactoryResult :=
  let vmmID := env.vmmID
  let baseRootFS := getRootfsPath language
  match fs baseRootFS with
  | none => ⟨.error (.rootfsNotFound language baseRootFS), fs, []⟩
  | some _ =>
    match copyFile fs env baseRootFS (rootfsPathOf vmmID) with
    | (some err, fs1) => ⟨.error (.prepareRootfs language err), fs1, []⟩
    | (none, fs1) =>
      let firecrackerBinary :=
        if env.firecrackerBinary = [] then defaultFirecrackerBinary else env.firecrackerBinary
      match env.statBinary with
      | .error err =>
        if err.isNotExist then ⟨.error (.binaryMissing firecrackerBinary err), fs1, []⟩
        else ⟨.error (.statBinary firecrackerBinary err), fs1, []⟩
      | .ok finfo =>
        if finfo.isDir then ⟨.error (.binaryIsDir firecrackerBinary), fs1, []⟩
        else if finfo.mode &&& 0o111 = 0 then
          ⟨.error (.binaryNotExecutable firecrackerBinary), fs1, []⟩
        else
          match env.newMachineErr with
          | some err => ⟨.error (.creatingMachine err), fs1, [.cancel env.scope]⟩
          | none =>
            match env.startErr with
            | some err => ⟨.error (.startingMachine err), fs1, [.cancel env.scope]⟩
            | none =>
              ⟨.ok ⟨vmmID, env.ip, getSocketPath env.tempDir env.pid vmmID, some env.scope⟩,
                fs1, [.log .info "machine started".toList none]⟩

/-- A host whose agent directory holds the image of `"go"` and nothing else. -/
def hostWithGoImage : FileSys :=
  fun p => if p = getRootfsPath langGo then some "ext4 image".toList else none

/-- The error of `os.Stat` on a path where there is no file. -/
def errStatNotExist : GoError := ⟨"stat: no such file or directory".toList, true, false⟩

/-- Outcomes in which every call succeeds but the `os.Stat` of the VMM binary,
which finds no file. -/
def binaryMissingEnv : FactoryEnv :=
  { vmmID := "vm1".toList, openErr := none, createErr := none, copyErr := none,
    syncErr := none, firecrackerBinary := [], statBinary := .error errStatNotExist,
    scope := 0, newMachineErr := none, startErr := none, ip := "10.0.0.2".toList,
    tempDir := "/tmp".toList, pid := 7 }

/-! # Proofs -/

/-! ### Facts about the string functions -/

theorem hasPrefix_iff (s pre : GoString) : HasPrefix s pre = true ↔ ∃ r, s = pre ++ r := by
  unfold HasPrefix
  constructor
  · intro h
    simp only [Bool.and_eq_true, decide_eq_true_eq, beq_iff_eq] at h
    refine ⟨s.drop pre.length, ?_⟩
    conv_lhs => rw [← List.take_append_drop pre.length s]
    rw [h.2]
  · rintro ⟨r, rfl⟩
    simp

theorem hasSuffix_iff (s suf : GoString) : HasSuffix s suf = true ↔ ∃ r, s = r ++ suf := by
  unfold HasSuffix
  constructor
  · intro h
    simp only [Bool.and_eq_true, decide_eq_true_eq, beq_iff_eq] at h
    refine ⟨s.take (s.length - suf.length), ?_⟩
    conv_lhs => rw [← List.take_append_drop (s.length - suf.length) s]
    rw [h.2]
  · rintro ⟨r, rfl⟩
    simp

theorem trimPrefix_append (pre r : GoString) : TrimPrefix (pre ++ r) pre = r := by
  have h : HasPrefix (pre ++ r) pre = true := (hasPrefix_iff _ _).2 ⟨r, rfl⟩
  simp [TrimPrefix, h]

theorem trimSuffix_append (r suf : GoString) : TrimSuffix (r ++ suf) suf = r := by
  have h : HasSuffix (r ++ suf) suf = true := (hasSuffix_iff _ _).2 ⟨r, rfl⟩
  simp [TrimSuffix, h]

/-- When `pre ++ r` ends in `suf`, either `r` itself ends in `suf`, or `suf`
starts inside `pre`: its first character occurs in `pre`. -/
theorem suffix_of_append (pre r suf : GoString) (h : HasSuffix (pre ++ r) suf = true) :
    (∃ t, r = t ++ suf) ∨ (∃ c, c ∈ pre ∧ suf.head? = some c) := by
  obtain ⟨x, hx⟩ := (hasSuffix_iff _ _).1 h
  rcases List.append_eq_append_iff.1 hx with ⟨a, _, ha⟩ | ⟨c, hc, hs⟩
  · exact Or.inl ⟨a, ha⟩
  · cases c with
    | nil => exact Or.inl ⟨[], by simpa using hs.symm⟩
    | cons d c =>
      refine Or.inr ⟨d, ?_, by simp [hs]⟩
      rw [hc]
      simp

/-- The test of the loop body holds exactly of the names `rootfs-<t>.ext4`. -/
theorem name_test_iff (n : GoString) :
    (HasPrefix n rootfsPrefix && HasSuffix n ext4Suffix) = true ↔
      ∃ t, n = rootfsPrefix ++ t ++ ext4Suffix := by
  constructor
  · intro h
    simp only [Bool.and_eq_true] at h
    obtain ⟨r, rfl⟩ := (hasPrefix_iff _ _).1 h.1
    rcases suffix_of_append _ _ _ h.2 with ⟨t, rfl⟩ | ⟨c, hc, hhead⟩
    · exact ⟨t, by simp⟩
    · exfalso
      have hdot : c = '.' := by
        simp [ext4Suffix] at hhead
        exact hhead.symm
      subst hdot
      revert hc
      decide
  · rintro ⟨t, rfl⟩
    simp only [Bool.and_eq_true]
    exact ⟨(hasPrefix_iff _ _).2 ⟨t ++ ext4Suffix, by simp⟩,
      (hasSuffix_iff _ _).2 ⟨rootfsPrefix ++ t, rfl⟩⟩

theorem yieldsTag_unique {f : FileInfo} {t u : GoString} (ht : YieldsTag f t)
    (hu : YieldsTag f u) : t = u := by
  have h := ht.2.symm.trans hu.2
  rw [List.append_assoc, List.append_assoc] at h
  exact List.append_cancel_right (List.append_cancel_left h)

theorem discoverStep_tag {f : FileInfo} {t : GoString} (h : YieldsTag f t)
    (acc : List GoString) : discoverStep acc f = acc ++ [t] := by
  have htest := (name_test_iff f.Name).2 ⟨t, h.2⟩
  unfold discoverStep
  rw [if_neg (by simp [h.1]), if_pos htest, h.2, List.append_assoc, trimPrefix_append,
    trimSuffix_append]

theorem discoverStep_skip {f : FileInfo} (h : ∀ t, ¬ YieldsTag f t)
    (acc : List GoString) : discoverStep acc f = acc := by
  unfold discoverStep
  by_cases hd : f.IsDir = true
  · rw [if_pos hd]
  · rw [if_neg hd, if_neg]
    intro htest
    obtain ⟨t, ht⟩ := (name_test_iff f.Name).1 htest
    exact h t ⟨by simpa using hd, ht⟩

theorem listingTags_foldl {files : List FileInfo} {tags : List GoString}
    (h : ListingTags files tags) (acc : List GoString) :
    files.foldl discoverStep acc = acc ++ tags := by
  induction h generalizing acc with
  | nil => simp
  | tag hy _ ih => rw [List.foldl_cons, discoverStep_tag hy, ih]; simp
  | skip hn _ ih => rw [List.foldl_cons, discoverStep_skip hn, ih]

theorem listingTags_exists (files : List FileInfo) : ∃ tags, ListingTags files tags := by
  induction files with
  | nil => exact ⟨[], .nil⟩
  | cons f fs ih =>
    obtain ⟨ts, hts⟩ := ih
    by_cases h : ∃ t, YieldsTag f t
    · obtain ⟨t, ht⟩ := h
      exact ⟨t :: ts, .tag ht hts⟩
    · exact ⟨ts, .skip (fun t ht => h ⟨t, ht⟩) hts⟩

theorem listingTags_mem {files : List FileInfo} {tags : List GoString}
    (h : ListingTags files tags) (t : GoString) :
    t ∈ tags ↔ ∃ f, f ∈ files ∧ YieldsTag f t := by
  induction h with
  | nil => simp
  | @tag f u fs ts hy _ ih =>
    simp only [List.mem_cons, ih]
    constructor
    · rintro (rfl | ⟨g, hg, hgt⟩)
      · exact ⟨f, Or.inl rfl, hy⟩
      · exact ⟨g, Or.inr hg, hgt⟩
    · rintro ⟨g, rfl | hg, hgt⟩
      · exact Or.inl (yieldsTag_unique hgt hy)
      · exact Or.inr ⟨g, hg, hgt⟩
  | @skip f fs ts hn _ ih =>
    simp only [List.mem_cons, ih]
    constructor
    · rintro ⟨g, hg, hgt⟩
      exact ⟨g, Or.inr hg, hgt⟩
    · rintro ⟨g, rfl | hg, hgt⟩
      · exact absurd hgt (hn t)
      · exact ⟨g, hg, hgt⟩

/-! ## C1: language discovery -/

/-- C1. For every listing of the agent directory, `discoverAvailableLanguages`
returns the tags of the listing, in listing order: the one list `tags` that
holds, entry by entry, `t` for each non-directory entry named
`rootfs-<t>.ext4` and nothing for any other entry. It returns the
no-rootfs-images error when that list is empty and the list otherwise, so it
returns an error if and only if no entry yields a tag. -/
theorem discoverAvailableLanguages_listing (files : List FileInfo) :
    ∃ tags : List GoString,
      ListingTags files tags ∧
      (∀ ts, ListingTags files ts → ts = tags) ∧
      (∀ t, t ∈ tags ↔ ∃ f, f ∈ files ∧ YieldsTag f t) ∧
      discoverAvailableLanguages (.ok files) =
        (if tags = [] then .error errNoRootfs else .ok tags) ∧
      ((∃ e, discoverAvailableLanguages (.ok files) = .error e) ↔
        ∀ f, f ∈ files → ∀ t, ¬ YieldsTag f t) := by
  obtain ⟨tags, htags⟩ := listingTags_exists files
  have hfold : files.foldl discoverStep [] = tags := by
    simpa using listingTags_foldl htags []
  have hres : discoverAvailableLanguages (.ok files) =
      (if tags = [] then .error errNoRootfs else .ok tags) := by
    simp only [discoverAvailableLanguages, hfold, List.length_eq_zero]
  refine ⟨tags, htags, ?_, listingTags_mem htags, hres, ?_⟩
  · intro ts hts
    have := listingTags_foldl hts []
    rw [hfold] at this
    simpa using this.symm
  · rw [hres]
    constructor
    · rintro ⟨e, he⟩ f hf t ht
      by_cases hnil : tags = []
      · have hmem := (listingTags_mem htags t).2 ⟨f, hf, ht⟩
        rw [hnil] at hmem
        exact absurd hmem (List.not_mem_nil t)
      · rw [if_neg hnil] at he
        cases he
    · intro hnone
      have hnil : tags = [] := by
        apply List.eq_nil_iff_forall_not_mem.2
        intro t ht
        obtain ⟨f, hf, hft⟩ := (listingTags_mem htags t).1 ht
        exact hnone f hf t hft
      exact ⟨errNoRootfs, by rw [if_pos hnil]⟩

/-! ## C2, C3: the pool manager -/

theorem AddPool_present {lpm : LanguagePoolManager} {language : GoString} {ch : Chan}
    (h : lpm.pools language = some ch) (limit : Nat) (size : Int) (fresh : Nat) :
    AddPool limit lpm language size fresh = some lpm := by
  simp [AddPool, h]

theorem AddPool_absent {lpm : LanguagePoolManager} {language : GoString}
    (h : lpm.pools language = none) (limit : Nat) (size : Int) (fresh : Nat) :
    AddPool limit lpm language size fresh =
      if size < 0 ∨ (limit : Int) < size then none
      else some ⟨fun l => if l = language then some ⟨fresh, size.toNat⟩ else lpm.pools l⟩ := by
  unfold AddPool makeChan
  rw [h]
  by_cases hs : size < 0 ∨ (limit : Int) < size <;> simp [hs]

/-- After a call that returned, the language has a pool. -/
theorem AddPool_installs {limit : Nat} {lpm m1 : LanguagePoolManager} {language : GoString}
    {size : Int} {fresh : Nat} (h : AddPool limit lpm language size fresh = some m1) :
    ∃ ch, m1.pools language = some ch := by
  cases hp : lpm.pools language with
  | some ch =>
    rw [AddPool_present hp] at h
    cases h
    exact ⟨ch, hp⟩
  | none =>
    rw [AddPool_absent hp] at h
    by_cases hs : size < 0 ∨ (limit : Int) < size
    · simp [hs] at h
    · simp only [hs, if_false, Option.some.injEq] at h
      subst h
      exact ⟨⟨fresh, size.toNat⟩, by simp⟩

/-- A call returns exactly when the language has a pool already or the
capacity is one `make` accepts. -/
theorem AddPool_returns_iff (limit : Nat) (lpm : LanguagePoolManager) (l : GoString) (c1 : Int)
    (f1 : Nat) :
    (∃ m1, AddPool limit lpm l c1 f1 = some m1) ↔
      ((lpm.pools l).isSome = true ∨ (0 ≤ c1 ∧ c1 ≤ (limit : Int))) := by
  cases hp : lpm.pools l with
  | some ch =>
    simp only [Option.isSome_some, true_or, iff_true]
    exact ⟨lpm, AddPool_present hp _ _ _⟩
  | none =>
    rw [AddPool_absent hp]
    by_cases hs : c1 < 0 ∨ (limit : Int) < c1
    · simp only [hs, if_true, Option.isSome_none, Bool.false_eq_true, false_or]
      constructor
      · rintro ⟨m1, hm⟩
        cases hm
      · intro hc
        omega
    · simp only [hs, if_false, Option.isSome_none, Bool.false_eq_true, false_or]
      constructor
      · intro _
        omega
      · intro _
        exact ⟨_, rfl⟩

/-- The counterexample to C2 as stated: on the manager that `AddPool("go", 5)`
leaves, which holds a pool of capacity 5 for `"go"`, `AddPool("go", 1)` and
then `AddPool("go", 2)` both return, and the pool for `"go"` keeps capacity 5,
not the `c1 = 1` of the first of the two calls. -/
theorem AddPool_capacity_counterexample :
    AddPool sampleLimit NewLanguagePoolManager langGo 5 0 = some managerWithGo ∧
    AddPool sampleLimit managerWithGo langGo 1 1 = some managerWithGo ∧
    AddPool sampleLimit managerWithGo langGo 2 2 = some managerWithGo ∧
    (managerWithGo.pools langGo).map Chan.cap = some 5 ∧
    (managerWithGo.pools langGo).map Chan.cap ≠ some 1 := by
  have h : managerWithGo.pools langGo = some ⟨0, 5⟩ := by simp [managerWithGo]
  refine ⟨?_, AddPool_present h _ _ _, AddPool_present h _ _ _, ?_, ?_⟩
  · simp [AddPool, NewLanguagePoolManager, makeChan, managerWithGo, sampleLimit]
  · simp [h]
  · simp [h]

/-- What a call of `AddPool` that returned did to the map. -/
theorem AddPool_result (limit : Nat) (lpm m1 : LanguagePoolManager) (l : GoString) (c1 : Int)
    (f1 : Nat) (h : AddPool limit lpm l c1 f1 = some m1) :
    (∀ k, (m1.pools k).isSome = true ↔ (k = l ∨ (lpm.pools k).isSome = true)) ∧
    (∀ k, k ≠ l → m1.pools k = lpm.pools k) ∧
    (∀ ch, lpm.pools l = some ch → m1.pools l = some ch) ∧
    (lpm.pools l = none →
      0 ≤ c1 ∧ c1 ≤ (limit : Int) ∧ m1.pools l = some ⟨f1, c1.toNat⟩) := by
  cases hp : lpm.pools l with
  | some ch =>
    rw [AddPool_present hp] at h
    cases h
    refine ⟨?_, fun _ _ => rfl, fun c hc => hp.trans hc, fun hn => by simp at hn⟩
    intro k
    constructor
    · exact fun hk => Or.inr hk
    · rintro (rfl | hk)
      · simp [hp]
      · exact hk
  | none =>
    rw [AddPool_absent hp] at h
    by_cases hs : c1 < 0 ∨ (limit : Int) < c1
    · simp [hs] at h
    · simp only [hs, if_false, Option.some.injEq] at h
      subst h
      refine ⟨?_, ?_, fun c hc => by simp at hc, fun _ => ⟨by omega, by omega, by simp⟩⟩
      · intro k
        by_cases hk : k = l
        · simp [hk]
        · simp [hk]
      · intro k hk
        simp [hk]

/-- C2 (amended). On a runtime whose limit on a channel buffer is `limit`:
`AddPool(l, c1)` returns exactly when `l` has a pool already or
`0 ≤ c1 ≤ limit` (otherwise it panics in `make`); and whenever it returns, a
following `AddPool(l, c2)` returns and leaves the manager exactly as it was
after the first call, whatever `c2` and the channel the runtime would have
allocated. After the first call the key set is the old one plus `l`, every
other language keeps its pool, and the pool of `l` is the one it already had,
or, when it had none, the new channel of capacity `c1`. -/
theorem AddPool_idempotent (limit : Nat) (lpm : LanguagePoolManager) (l : GoString)
    (c1 c2 : Int) (f1 f2 : Nat) :
    ((∃ m1, AddPool limit lpm l c1 f1 = some m1) ↔
      ((lpm.pools l).isSome = true ∨ (0 ≤ c1 ∧ c1 ≤ (limit : Int)))) ∧
    ∀ m1, AddPool limit lpm l c1 f1 = some m1 →
      AddPool limit m1 l c2 f2 = some m1 ∧
      (∀ k, (m1.pools k).isSome = true ↔ (k = l ∨ (lpm.pools k).isSome = true)) ∧
      (∀ k, k ≠ l → m1.pools k = lpm.pools k) ∧
      (∀ ch, lpm.pools l = some ch → m1.pools l = some ch) ∧
      (lpm.pools l = none →
        0 ≤ c1 ∧ c1 ≤ (limit : Int) ∧ m1.pools l = some ⟨f1, c1.toNat⟩) := by
  refine ⟨AddPool_returns_iff limit lpm l c1 f1, fun m1 h => ?_⟩
  obtain ⟨ch1, hch1⟩ := AddPool_installs h
  exact ⟨AddPool_present hch1 _ _ _, AddPool_result limit lpm m1 l c1 f1 h⟩

/-- C2 (amended) at a concrete input: on a fresh manager, `AddPool("go", 1)`
and then `AddPool("go", 2)`. -/
theorem AddPool_idempotent_witness :
    AddPool sampleLimit NewLanguagePoolManager langGo 1 0 = some managerGoOne ∧
    AddPool sampleLimit managerGoOne langGo 2 1 = some managerGoOne :=
  have h : AddPool sampleLimit NewLanguagePoolManager langGo 1 0 = some managerGoOne := by
    simp [AddPool, NewLanguagePoolManager, makeChan, managerGoOne, sampleLimit]
  ⟨h, ((AddPool_idempotent sampleLimit NewLanguagePoolManager langGo 1 2 0 1).2
    managerGoOne h).1⟩

/-- The map after a sequence of calls that returned: a language that had a
pool keeps it, and any other language has the channel of the first call that
names it. -/
theorem addPools_pools (limit : Nat) (calls : List (GoString × Int)) :
    ∀ (fresh : Nat) (lpm m : LanguagePoolManager), addPools limit calls fresh lpm = some m →
      ∀ l, (∀ ch, lpm.pools l = some ch → m.pools l = some ch) ∧
        (lpm.pools l = none → m.pools l = firstPool calls fresh l) := by
  induction calls with
  | nil =>
    intro fresh lpm m h l
    simp only [addPools, Option.some.injEq] at h
    subst h
    exact ⟨fun _ hc => hc, fun hn => by simpa [firstPool] using hn⟩
  | cons c rest ih =>
    obtain ⟨language, size⟩ := c
    intro fresh lpm m h l
    simp only [addPools] at h
    cases h1 : AddPool limit lpm language size fresh with
    | none => simp [h1] at h
    | some lpm1 =>
      rw [h1] at h
      simp only at h
      obtain ⟨-, hother, hkept, hnew⟩ := AddPool_result limit lpm lpm1 language size fresh h1
      obtain ⟨ihkeep, ihnone⟩ := ih _ _ _ h l
      constructor
      · intro ch hch
        apply ihkeep
        by_cases hl : l = language
        · subst hl
          exact hkept ch hch
        · rw [hother l hl]
          exact hch
      · intro hn
        by_cases hl : language = l
        · subst hl
          simp only [firstPool, if_true]
          exact ihkeep _ (hnew hn).2.2
        · simp only [firstPool, hl, if_false]
          apply ihnone
          rw [hother l (fun e => hl e.symm)]
          exact hn

theorem firstPool_isSome (calls : List (GoString × Int)) :
    ∀ (fresh : Nat) (l : GoString),
      (firstPool calls fresh l).isSome = true ↔ l ∈ calls.map Prod.fst := by
  induction calls with
  | nil => intro fresh l; simp [firstPool]
  | cons c rest ih =>
    obtain ⟨language, size⟩ := c
    intro fresh l
    by_cases hl : language = l
    · simp [firstPool, hl]
    · have hl2 : ¬ l = language := fun e => hl e.symm
      simp [firstPool, hl, hl2, ih]

theorem addPools_total (limit : Nat) (calls : List (GoString × Int)) :
    ∀ (fresh : Nat) (lpm : LanguagePoolManager),
      (∀ c, c ∈ calls → 0 ≤ c.2 ∧ c.2 ≤ (limit : Int)) →
      ∃ m, addPools limit calls fresh lpm = some m := by
  induction calls with
  | nil => exact fun _ lpm _ => ⟨lpm, rfl⟩
  | cons c rest ih =>
    obtain ⟨language, size⟩ := c
    intro fresh lpm hpos
    have hsize : ¬ (size < 0 ∨ (limit : Int) < size) := by
      have := hpos (language, size) (List.mem_cons_self _ _)
      simp only at this
      omega
    have hrest : ∀ c, c ∈ rest → 0 ≤ c.2 ∧ c.2 ≤ (limit : Int) :=
      fun c hc => hpos c (List.mem_cons_of_mem _ hc)
    cases hp : lpm.pools language with
    | some ch =>
      obtain ⟨m, hm⟩ := ih (fresh + 1) lpm hrest
      exact ⟨m, by simp [addPools, AddPool_present hp, hm]⟩
    | none =>
      obtain ⟨m, hm⟩ := ih (fresh + 1) _ hrest
      exact ⟨m, by simp only [addPools, AddPool_absent hp, hsize, if_false]; exact hm⟩

theorem getPool_ok_iff (lpm : LanguagePoolManager) (l : GoString) (pool : Chan) :
    GetPool lpm l = .ok pool ↔ lpm.pools l = some pool := by
  unfold GetPool
  cases lpm.pools l <;> simp

theorem getPool_error_of_none {lpm : LanguagePoolManager} {l : GoString}
    (h : lpm.pools l = none) : GetPool lpm l = .error (errNoPool l) := by
  unfold GetPool
  rw [h]

/-- The startup loop is the sequence of `AddPool(language, 1)` calls; each
filler gets the channel the map holds for its language; capacities stay 1. -/
theorem startupLoop_eq (limit : Nat) (hlimit : 1 ≤ limit) (languages : List GoString) :
    ∀ (fresh : Nat) (lpm : LanguagePoolManager) (fillers : List (GoString × Option Chan)),
      (∀ l ch, lpm.pools l = some ch → ch.cap = 1) →
      ∃ m fs, startupLoop limit languages fresh lpm fillers = some (m, fs) ∧
        addPools limit (languages.map fun l => (l, poolSize)) fresh lpm = some m ∧
        fs.map Prod.fst = fillers.map Prod.fst ++ languages ∧
        (∀ l ch, m.pools l = some ch → ch.cap = 1) ∧
        (∀ p, p ∈ fs → p ∉ fillers → ∃ ch, p.2 = some ch ∧ m.pools p.1 = some ch) := by
  induction languages with
  | nil =>
    intro fresh lpm fillers hcap
    exact ⟨lpm, fillers, rfl, rfl, by simp, hcap, fun p hp hn => absurd hp hn⟩
  | cons language rest ih =>
    intro fresh lpm fillers hcap
    obtain ⟨lpm1, h1⟩ : ∃ m, AddPool limit lpm language poolSize fresh = some m := by
      apply (AddPool_returns_iff limit lpm language poolSize fresh).2
      right
      simp only [poolSize]
      omega
    obtain ⟨-, hother, hkept, hnew⟩ := AddPool_result limit lpm lpm1 language poolSize fresh h1
    have hcap1 : ∀ l ch, lpm1.pools l = some ch → ch.cap = 1 := by
      intro l ch hl
      by_cases hll : l = language
      · subst hll
        cases hp : lpm.pools l with
        | some ch0 =>
          have := hkept ch0 hp
          rw [hl] at this
          cases this
          exact hcap l _ hp
        | none =>
          have := (hnew hp).2.2
          rw [hl] at this
          cases this
          simp [poolSize]
      · rw [hother l hll] at hl
        exact hcap l ch hl
    obtain ⟨ch, hch⟩ := AddPool_installs h1
    have hget : GetPool lpm1 language = .ok ch := by simp [GetPool, hch]
    obtain ⟨m, fs, hrun, hadd, hnames, hcapm, hpools⟩ :=
      ih (fresh + 1) lpm1 (fillers ++ [(language, some ch)]) hcap1
    refine ⟨m, fs, ?_, ?_, ?_, hcapm, ?_⟩
    · simp only [startupLoop, h1, hget]
      exact hrun
    · simp only [List.map_cons, addPools, h1]
      exact hadd
    · simp [hnames]
    · intro p hp hn
      by_cases hnew : p = (language, some ch)
      · subst hnew
        exact ⟨ch, rfl, (addPools_pools limit _ _ _ _ hadd language).1 ch hch⟩
      · refine hpools p hp ?_
        simp only [List.mem_append, List.mem_singleton, not_or]
        exact ⟨hn, hnew⟩

/-- The counterexample to C3 as stated: the one-call sequence
`AddPool("go", -1)` on a fresh manager. The call panics in `make`, before the
map is written, so the sequence does not return and the manager is still the
fresh one: `GetPool("go")` gives the no-pool error although `AddPool` was
called with `"go"`. -/
theorem addPools_panic_counterexample :
    AddPool sampleLimit NewLanguagePoolManager langGo (-1) 0 = none ∧
    addPools sampleLimit [(langGo, -1)] 0 NewLanguagePoolManager = none ∧
    langGo ∈ [(langGo, (-1 : Int))].map Prod.fst ∧
    GetPool NewLanguagePoolManager langGo = .error (errNoPool langGo) := by
  refine ⟨?_, ?_, by simp, rfl⟩
  · simp [AddPool, NewLanguagePoolManager, makeChan]
  · simp [addPools, AddPool, NewLanguagePoolManager, makeChan]

/-- C3 (amended). On a runtime whose limit on a channel buffer is `limit`:
(1) after any sequence of `AddPool` calls on a fresh manager that all
returned, `GetPool(l)` returns exactly what the map holds for `l`; it returns
a pool and no error if and only if `AddPool` was called with `l` at least
once, the pool being the channel made by the first call with `l`, of that
call's capacity, and otherwise it returns the no-pool error naming `l`.
(2) Every call of a sequence returns when all capacities lie between 0 and
`limit`. (3) When the runtime can make a channel of capacity 1, the startup
loop of `main` completes, starts one filler per discovered language on the
channel of capacity 1 that the map holds for it, and afterwards `GetPool`
succeeds on exactly the languages the discovery returned. -/
theorem GetPool_succeeds_iff_added (limit : Nat) :
    (∀ (calls : List (GoString × Int)) (lpm : LanguagePoolManager),
      addPools limit calls 0 NewLanguagePoolManager = some lpm → ∀ l : GoString,
        (∀ pool, GetPool lpm l = .ok pool ↔ lpm.pools l = some pool) ∧
        (∀ pool, GetPool lpm l = .ok pool ↔ firstPool calls 0 l = some pool) ∧
        ((∃ pool, GetPool lpm l = .ok pool) ↔ l ∈ calls.map Prod.fst) ∧
        (l ∉ calls.map Prod.fst → GetPool lpm l = .error (errNoPool l))) ∧
    (∀ calls : List (GoString × Int), (∀ c, c ∈ calls → 0 ≤ c.2 ∧ c.2 ≤ (limit : Int)) →
      ∃ lpm, addPools limit calls 0 NewLanguagePoolManager = some lpm) ∧
    (1 ≤ limit → ∀ languages : List GoString, ∃ lpm fillers,
      startupLoop limit languages 0 NewLanguagePoolManager [] = some (lpm, fillers) ∧
      fillers.map Prod.fst = languages ∧
      (∀ p, p ∈ fillers → ∃ ch, p.2 = some ch ∧ ch.cap = 1 ∧ lpm.pools p.1 = some ch ∧
        GetPool lpm p.1 = .ok ch) ∧
      ∀ l : GoString, (∃ pool, GetPool lpm l = .ok pool) ↔ l ∈ languages) := by
  have hmap : ∀ (calls : List (GoString × Int)) (lpm : LanguagePoolManager),
      addPools limit calls 0 NewLanguagePoolManager = some lpm → ∀ l : GoString,
        lpm.pools l = firstPool calls 0 l := by
    intro calls lpm h l
    exact (addPools_pools limit calls 0 _ _ h l).2 rfl
  have hiff : ∀ (calls : List (GoString × Int)) (lpm : LanguagePoolManager),
      addPools limit calls 0 NewLanguagePoolManager = some lpm → ∀ l : GoString,
        (∃ pool, GetPool lpm l = .ok pool) ↔ l ∈ calls.map Prod.fst := by
    intro calls lpm h l
    rw [← firstPool_isSome calls 0 l, ← hmap calls lpm h l]
    constructor
    · rintro ⟨pool, hp⟩
      rw [(getPool_ok_iff lpm l pool).1 hp]
      rfl
    · intro hs
      obtain ⟨pool, hp⟩ := Option.isSome_iff_exists.1 hs
      exact ⟨pool, (getPool_ok_iff lpm l pool).2 hp⟩
  refine ⟨?_, fun calls hpos => addPools_total limit calls 0 _ hpos, ?_⟩
  · intro calls lpm h l
    refine ⟨getPool_ok_iff lpm l, fun pool => ?_, hiff calls lpm h l, fun hl => ?_⟩
    · rw [getPool_ok_iff, hmap calls lpm h l]
    · apply getPool_error_of_none
      rw [hmap calls lpm h l]
      have := (firstPool_isSome calls 0 l).not.2 hl
      simpa using this
  · intro hlimit languages
    obtain ⟨m, fs, hrun, hadd, hnames, hcap, hpools⟩ :=
      startupLoop_eq limit hlimit languages 0 NewLanguagePoolManager []
        (fun l ch hl => by simp [NewLanguagePoolManager] at hl)
    refine ⟨m, fs, hrun, by simpa using hnames, ?_, ?_⟩
    · intro p hp
      obtain ⟨ch, hc, hm⟩ := hpools p hp (List.not_mem_nil p)
      exact ⟨ch, hc, hcap _ _ hm, hm, (getPool_ok_iff m p.1 ch).2 hm⟩
    · intro l
      rw [hiff _ m hadd l]
      simp [List.map_map, Function.comp_def]

/-- C3 (amended) at a concrete input: on a runtime that can make a channel of
capacity 1, the startup loop of `main` over the languages `go` and `python`. -/
theorem GetPool_succeeds_iff_added_witness :
    1 ≤ sampleLimit ∧
    ∃ lpm fillers,
      startupLoop sampleLimit [langGo, "python".toList] 0 NewLanguagePoolManager [] =
        some (lpm, fillers) ∧
      fillers.map Prod.fst = [langGo, "python".toList] ∧
      (∀ p, p ∈ fillers → ∃ ch, p.2 = some ch ∧ ch.cap = 1 ∧ lpm.pools p.1 = some ch ∧
        GetPool lpm p.1 = .ok ch) ∧
      ∀ l : GoString, (∃ pool, GetPool lpm l = .ok pool) ↔ l ∈ [langGo, "python".toList] :=
  ⟨by decide, (GetPool_succeeds_iff_added sampleLimit).2.2 (by decide)
    [langGo, "python".toList]⟩

/-! ## C9: socket files are removed by their own process only -/

theorem digitChar_ne_minus (u : Nat) (h : u < 10) : digitChar u ≠ '-' := by
  interval_cases u <;> decide

theorem digitChar_val (u : Nat) (h : u < 10) : (digitChar u).toNat - 48 = u := by
  interval_cases u <;> decide

/-- The value a digit string denotes, read from the left. -/
theorem formatDigits_value (fuel : Nat) : ∀ (u : Nat) (acc : GoString), u ≤ fuel →
    (formatDigits fuel u acc).foldl (fun v c => 10 * v + (c.toNat - 48)) 0 =
      acc.foldl (fun v c => 10 * v + (c.toNat - 48)) u := by
  induction fuel with
  | zero =>
    intro u acc hu
    have h0 : u = 0 := by omega
    subst h0
    simp [formatDigits, digitChar_val 0 (by decide)]
  | succ fuel ih =>
    intro u acc hu
    unfold formatDigits
    by_cases h : u < 10
    · simp [h, digitChar_val u h]
    · rw [if_neg h, ih (u / 10) _ (by omega)]
      simp only [List.foldl_cons]
      rw [digitChar_val (u % 10) (Nat.mod_lt _ (by decide))]
      congr 1
      omega

theorem formatDigits_no_minus (fuel : Nat) : ∀ (u : Nat) (acc : GoString), u ≤ fuel →
    ∀ c, c ∈ formatDigits fuel u acc → c ≠ '-' ∨ c ∈ acc := by
  induction fuel with
  | zero =>
    intro u acc hu c hc
    have h0 : u = 0 := by omega
    subst h0
    simp only [formatDigits, List.mem_cons] at hc
    rcases hc with rfl | hc
    · exact Or.inl (digitChar_ne_minus 0 (by decide))
    · exact Or.inr hc
  | succ fuel ih =>
    intro u acc hu c hc
    unfold formatDigits at hc
    by_cases h : u < 10
    · simp only [h, if_true, List.mem_cons] at hc
      rcases hc with rfl | hc
      · exact Or.inl (digitChar_ne_minus u h)
      · exact Or.inr hc
    · rw [if_neg h] at hc
      rcases ih (u / 10) _ (by omega) c hc with hne | hmem
      · exact Or.inl hne
      · simp only [List.mem_cons] at hmem
        rcases hmem with rfl | hmem
        · exact Or.inl (digitChar_ne_minus _ (Nat.mod_lt _ (by decide)))
        · exact Or.inr hmem

theorem formatDigits_ne_nil (fuel u : Nat) (acc : GoString) : formatDigits fuel u acc ≠ [] := by
  induction fuel generalizing u acc with
  | zero => simp [formatDigits]
  | succ fuel ih =>
    unfold formatDigits
    by_cases h : u < 10
    · simp [h]
    · rw [if_neg h]
      exact ih _ _

/-- The digits of a natural number: no `-` among them, never empty, and they
determine the number. -/
theorem natDigits_no_minus (n : Nat) : '-' ∉ formatDigits n n [] := by
  intro h
  rcases formatDigits_no_minus n n [] (le_refl n) '-' h with h1 | h1
  · exact h1 rfl
  · exact absurd h1 (List.not_mem_nil _)

theorem natDigits_injective {m n : Nat} (h : formatDigits m m [] = formatDigits n n []) :
    m = n := by
  have hm := formatDigits_value m m [] (le_refl m)
  have hn := formatDigits_value n n [] (le_refl n)
  rw [h, hn] at hm
  simpa using hm.symm

/-- Two strings that agree up to a `-` each, neither holding a `-` before it,
agree before it. -/
theorem eq_of_append_minus {a b x y : GoString} (ha : '-' ∉ a) (hb : '-' ∉ b)
    (h : a ++ '-' :: x = b ++ '-' :: y) : a = b := by
  rcases List.append_eq_append_iff.1 h with ⟨c, hbc, hx⟩ | ⟨c, hac, hy⟩
  · cases c with
    | nil => simpa using hbc.symm
    | cons d c =>
      simp only [List.cons_append, List.cons.injEq] at hx
      exact absurd (by rw [hbc, hx.1]; simp) hb
  · cases c with
    | nil => simpa using hac
    | cons d c =>
      simp only [List.cons_append, List.cons.injEq] at hy
      exact absurd (by rw [hac, hy.1]; simp) ha

theorem Itoa_prefix_iff (p q : Int) (x y : GoString)
    (h : Itoa p ++ '-' :: x = Itoa q ++ '-' :: y) : p = q := by
  unfold Itoa at h
  by_cases hp : p < 0 <;> by_cases hq : q < 0
  · simp only [hp, hq, if_true, List.cons_append, List.cons.injEq, true_and] at h
    have := natDigits_injective
      (eq_of_append_minus (natDigits_no_minus _) (natDigits_no_minus _) h)
    omega
  · simp only [hp, hq, if_true, if_false, List.cons_append] at h
    exfalso
    cases hd : formatDigits q.natAbs q.natAbs [] with
    | nil => exact formatDigits_ne_nil _ _ _ hd
    | cons d ds =>
      rw [hd] at h
      simp only [List.cons_append, List.cons.injEq] at h
      have hmem : d ∈ formatDigits q.natAbs q.natAbs [] := by rw [hd]; simp
      rw [← h.1] at hmem
      exact natDigits_no_minus _ hmem
  · simp only [hp, hq, if_true, if_false, List.cons_append] at h
    exfalso
    cases hd : formatDigits p.natAbs p.natAbs [] with
    | nil => exact formatDigits_ne_nil _ _ _ hd
    | cons d ds =>
      rw [hd] at h
      simp only [List.cons_append, List.cons.injEq] at h
      have hmem : d ∈ formatDigits p.natAbs p.natAbs [] := by rw [hd]; simp
      rw [h.1] at hmem
      exact natDigits_no_minus _ hmem
  · simp only [hp, hq, if_false] at h
    have := natDigits_injective
      (eq_of_append_minus (natDigits_no_minus _) (natDigits_no_minus _) h)
    omega

theorem socketFileName_eq (pid : Int) (vmmID : GoString) :
    socketFileName pid vmmID = socketPrefix pid ++ vmmID := by
  simp [socketFileName, socketPrefix, stringsJoin, List.intercalate, List.intersperse]

/-- The prefix test of `deleteVMMSockets` in process `p`, on the socket file
name of process `q`: it passes exactly when `p = q`. -/
theorem socketPrefix_test_iff (p q : Int) (v : GoString) :
    HasPrefix (socketFileName q v) (socketPrefix p) = true ↔ p = q := by
  rw [hasPrefix_iff, socketFileName_eq]
  constructor
  · rintro ⟨r, hr⟩
    simp only [socketPrefix, List.append_assoc] at hr
    have h2 := List.append_cancel_left hr
    exact (Itoa_prefix_iff q p _ _ (by simpa using h2)).symm
  · rintro rfl
    exact ⟨v, rfl⟩

theorem mem_deleteStep (pid : Int) (tempDir : GoString) (x : Path) (acc : List Path)
    (e : FileInfo) :
    x ∈ deleteStep pid tempDir acc e ↔
      x ∈ acc ∨ (HasPrefix e.Name (socketPrefix pid) = true ∧
        (x = filepathJoin tempDir e.Name ∨
          (HasSuffix e.Name logSuffix = false ∧
            x = (filepathJoin tempDir e.Name).plus logSuffix))) := by
  by_cases hp : HasPrefix e.Name (socketPrefix pid) = true
  · by_cases hs : HasSuffix e.Name logSuffix = true
    · simp [deleteStep, hp, hs]
    · simp only [Bool.not_eq_true] at hs
      simp [deleteStep, hp, hs, or_assoc]
  · simp [deleteStep, hp]

theorem mem_foldl_deleteStep (pid : Int) (tempDir : GoString) (x : Path)
    (entries : List FileInfo) : ∀ acc : List Path,
    x ∈ entries.foldl (deleteStep pid tempDir) acc ↔
      x ∈ acc ∨ ∃ e, e ∈ entries ∧ HasPrefix e.Name (socketPrefix pid) = true ∧
        (x = filepathJoin tempDir e.Name ∨
          (HasSuffix e.Name logSuffix = false ∧
            x = (filepathJoin tempDir e.Name).plus logSuffix)) := by
  induction entries with
  | nil => intro acc; simp
  | cons e es ih =>
    intro acc
    rw [List.foldl_cons, ih, mem_deleteStep]
    simp only [List.mem_cons, exists_eq_or_imp, or_assoc]

theorem mem_deleteVMMSockets (pid : Int) (tempDir : GoString) (x : Path)
    (entries : List FileInfo) :
    x ∈ deleteVMMSockets pid tempDir (.ok entries) ↔
      ∃ e, e ∈ entries ∧ HasPrefix e.Name (socketPrefix pid) = true ∧
        (x = filepathJoin tempDir e.Name ∨
          (HasSuffix e.Name logSuffix = false ∧
            x = (filepathJoin tempDir e.Name).plus logSuffix)) := by
  simp [deleteVMMSockets, mem_foldl_deleteStep]

theorem hasPrefix_append {s pre : GoString} (h : HasPrefix s pre = true) (t : GoString) :
    HasPrefix (s ++ t) pre = true := by
  obtain ⟨r, rfl⟩ := (hasPrefix_iff _ _).1 h
  exact (hasPrefix_iff _ _).2 ⟨r ++ t, by simp⟩

theorem socketFileName_log (q : Int) (v : GoString) :
    socketFileName q v ++ logSuffix = socketFileName q (v ++ logSuffix) := by
  simp [socketFileName_eq]

/-- C9. In process `p`, for the socket of VM `v` of process `q`: the prefix
test of `deleteVMMSockets` passes on the file name `getSocketPath` builds, and
on its `.log` sibling, if and only if `p = q`. Hence, for every listing of the
temp directory, a listed socket file is handed to `os.Remove` if and only if
`p = q`, and so is a listed `.log` sibling; a listed socket whose name does not
end in `.log` also has its sibling removed without the sibling being listed;
and when `p ≠ q` neither path is ever removed. -/
theorem deleteVMMSockets_own_pid (p q : Int) (v tempDir : GoString)
    (entries : List FileInfo) :
    (HasPrefix (socketFileName q v) (socketPrefix p) = true ↔ p = q) ∧
    (HasPrefix (socketFileName q v ++ logSuffix) (socketPrefix p) = true ↔ p = q) ∧
    (socketFileName q v ∈ entries.map FileInfo.Name →
      (getSocketPath tempDir q v ∈ deleteVMMSockets p tempDir (.ok entries) ↔ p = q)) ∧
    (socketFileName q v ++ logSuffix ∈ entries.map FileInfo.Name →
      ((getSocketPath tempDir q v).plus logSuffix ∈
        deleteVMMSockets p tempDir (.ok entries) ↔ p = q)) ∧
    (socketFileName q v ∈ entries.map FileInfo.Name →
      HasSuffix (socketFileName q v) logSuffix = false → p = q →
      (getSocketPath tempDir q v).plus logSuffix ∈ deleteVMMSockets p tempDir (.ok entries)) ∧
    (p ≠ q → getSocketPath tempDir q v ∉ deleteVMMSockets p tempDir (.ok entries) ∧
      (getSocketPath tempDir q v).plus logSuffix ∉
        deleteVMMSockets p tempDir (.ok entries)) := by
  have hlog : HasPrefix (socketFileName q v ++ logSuffix) (socketPrefix p) = true ↔ p = q := by
    rw [socketFileName_log]
    exact socketPrefix_test_iff p q _
  have hsock : getSocketPath tempDir q v ∈ deleteVMMSockets p tempDir (.ok entries) → p = q := by
    rw [mem_deleteVMMSockets]
    rintro ⟨e, _, hpre, hx | ⟨_, hx⟩⟩
    · simp only [getSocketPath, filepathJoin, Path.mk.injEq, true_and] at hx
      rw [← hx] at hpre
      exact (socketPrefix_test_iff p q v).1 hpre
    · simp only [getSocketPath, filepathJoin, Path.plus, Path.mk.injEq, true_and] at hx
      have := hasPrefix_append hpre logSuffix
      rw [← hx] at this
      exact (socketPrefix_test_iff p q v).1 this
  have hsib : (getSocketPath tempDir q v).plus logSuffix ∈
      deleteVMMSockets p tempDir (.ok entries) → p = q := by
    rw [mem_deleteVMMSockets]
    rintro ⟨e, _, hpre, hx | ⟨_, hx⟩⟩
    · simp only [getSocketPath, filepathJoin, Path.plus, Path.mk.injEq, true_and] at hx
      rw [← hx] at hpre
      exact hlog.1 hpre
    · simp only [getSocketPath, filepathJoin, Path.plus, Path.mk.injEq, true_and] at hx
      have hname := List.append_cancel_right hx
      rw [← hname] at hpre
      exact (socketPrefix_test_iff p q v).1 hpre
  refine ⟨socketPrefix_test_iff p q v, hlog, ?_, ?_, ?_, fun hne => ⟨fun h => hne (hsock h),
    fun h => hne (hsib h)⟩⟩
  · intro hlisted
    refine ⟨hsock, fun hpq => ?_⟩
    obtain ⟨e, he, hname⟩ := List.mem_map.1 hlisted
    rw [mem_deleteVMMSockets]
    refine ⟨e, he, ?_, Or.inl ?_⟩
    · rw [hname]
      exact (socketPrefix_test_iff p q v).2 hpq
    · simp [getSocketPath, hname]
  · intro hlisted
    refine ⟨hsib, fun hpq => ?_⟩
    obtain ⟨e, he, hname⟩ := List.mem_map.1 hlisted
    rw [mem_deleteVMMSockets]
    refine ⟨e, he, ?_, Or.inl ?_⟩
    · rw [hname]
      exact hlog.2 hpq
    · simp [getSocketPath, filepathJoin, Path.plus, hname]
  · intro hlisted hnolog hpq
    obtain ⟨e, he, hname⟩ := List.mem_map.1 hlisted
    rw [mem_deleteVMMSockets]
    refine ⟨e, he, ?_, Or.inr ⟨?_, ?_⟩⟩
    · rw [hname]
      exact (socketPrefix_test_iff p q v).2 hpq
    · rw [hname]
      exact hnolog
    · simp [getSocketPath, hname]

/-! ## C6, C8, C10: the teardown sequence -/

theorem range'_sum_closed (k : Nat) : ∀ a : Nat,
    2 * (List.range' a k).sum + k = k * (2 * a + k) := by
  induction k with
  | zero => intro a; simp
  | succ k ih =>
    intro a
    have h := ih (a + 1)
    simp only [List.range'_succ, List.sum_cons]
    nlinarith [h]

/-- The removal loop entered at `attempt = a` when the attempts `a`, ...,
`a + k - 1` fail and the loop then ends (at the limit, or on an attempt that
does not fail): it makes `min (k + 1) (31 - a)` attempts, sleeps
`attempt × 100 ms` after each failed one, logs nothing at error level, and
leaves `lastErr` nil unless it ran into the limit with a failure. -/
theorem removeRootfsLoop_run (path : Path) (remove : Nat → Option GoError) (k : Nat) :
    ∀ (a fuel : Nat) (lastErr : Option GoError), a + k ≤ 31 → 32 ≤ fuel + a →
      (∀ i, a ≤ i → i < a + k → RemoveFails remove i) →
      (a + k ≤ 30 → ¬ RemoveFails remove (a + k)) →
      ∃ effects last, removeRootfsLoop path remove fuel a lastErr = some (effects, last) ∧
        callsOf effects = List.replicate (min (k + 1) (31 - a)) (.osRemove path) ∧
        errorLogsOf effects = [] ∧
        sleptOf effects = 100 * Millisecond * (List.range' a k).sum ∧
        (a + k ≤ 30 → last = none) ∧
        (a + k = 31 → last = if k = 0 then lastErr else remove 30) := by
  induction k with
  | zero =>
    intro a fuel lastErr hak hfuel _ hstop
    obtain ⟨fuel, rfl⟩ : ∃ f, fuel = f + 1 := ⟨fuel - 1, by omega⟩
    by_cases ha : a ≤ 30
    · have hnf := hstop (by omega)
      simp only [Nat.add_zero] at hnf
      cases hr : remove a with
      | none =>
        refine ⟨[.osRemove path], none, by simp [removeRootfsLoop, ha, hr], ?_, by
          simp [errorLogsOf], by simp [sleptOf], fun _ => rfl, fun h => by omega⟩
        have : min 1 (31 - a) = 1 := by omega
        simp [callsOf, this]
      | some err =>
        have hne : err.isNotExist = true := by
          by_contra hcon
          exact hnf ⟨err, hr, by simpa using hcon⟩
        refine ⟨[.osRemove path], none, by simp [removeRootfsLoop, ha, hr, hne], ?_, by
          simp [errorLogsOf], by simp [sleptOf], fun _ => rfl, fun h => by omega⟩
        have : min 1 (31 - a) = 1 := by omega
        simp [callsOf, this]
    · have h31 : a = 31 := by omega
      subst h31
      exact ⟨[], lastErr, by simp [removeRootfsLoop], by simp [callsOf], by simp [errorLogsOf],
        by simp [sleptOf], fun h => by omega, fun _ => by simp⟩
  | succ k ih =>
    intro a fuel lastErr hak hfuel hfail hstop
    obtain ⟨fuel, rfl⟩ : ∃ f, fuel = f + 1 := ⟨fuel - 1, by omega⟩
    have ha : a ≤ 30 := by omega
    obtain ⟨err, hr, hne⟩ := hfail a (le_refl a) (by omega)
    obtain ⟨effects, last, hrun, hcalls, hlogs, hslept, hnone, hlast⟩ :=
      ih (a + 1) fuel (some err) (by omega) (by omega)
        (fun i h1 h2 => hfail i (by omega) (by omega))
        (fun h => by
          have := hstop (by omega)
          rwa [show a + (k + 1) = a + 1 + k by omega] at this)
    refine ⟨_, last, by simp only [removeRootfsLoop, ha, if_true, hr, hne, hrun]; rfl,
      ?_, ?_, ?_, ?_, ?_⟩
    · have hmin : min (k + 1 + 1) (31 - a) = min (k + 1) (31 - (a + 1)) + 1 := by omega
      rw [hmin, List.replicate_succ, ← hcalls]
      simp [callsOf]
    · simpa [errorLogsOf] using hlogs
    · simp only [sleptOf, hslept, List.range'_succ, List.sum_cons]
      ring
    · intro h
      exact hnone (by omega)
    · intro h
      rw [hlast (by omega)]
      by_cases hk : k = 0
      · subst hk
        have h30 : a = 30 := by omega
        subst h30
        simp [hr]
      · simp [hk]

/-- The removal loop as `shutDown` enters it, when the first `k` attempts fail
and the loop then ends. -/
theorem removeRootfsLoop_first (path : Path) (remove : Nat → Option GoError) (k : Nat)
    (hk : k ≤ 30) (hfail : ∀ i, 1 ≤ i → i ≤ k → RemoveFails remove i)
    (hstop : k < 30 → ¬ RemoveFails remove (k + 1)) :
    ∃ effects last, removeRootfsLoop path remove 31 1 none = some (effects, last) ∧
      callsOf effects = List.replicate (min (k + 1) 30) (.osRemove path) ∧
      errorLogsOf effects = [] ∧
      sleptOf effects = 100 * Millisecond * (List.range' 1 k).sum ∧
      (k < 30 → last = none) ∧
      (k = 30 → last = remove 30 ∧ RemoveFails remove 30) := by
  obtain ⟨effects, last, hrun, hcalls, hlogs, hslept, hnone, hlast⟩ :=
    removeRootfsLoop_run path remove k 1 31 none (by omega) (by omega)
      (fun i h1 h2 => hfail i h1 (by omega))
      (fun h => by
        have := hstop (by omega)
        rwa [Nat.add_comm] at this)
  refine ⟨effects, last, hrun, by simpa using hcalls, hlogs, hslept, fun h => hnone (by omega),
    fun h => ?_⟩
  subst h
  exact ⟨by simpa using hlast (by omega), hfail 30 (by omega) (le_refl _)⟩

/-- Every sequence of removal outcomes has a number `k ≤ limit` of leading
failures: the attempts `1, ..., k` fail, and attempt `k + 1` does not unless
`k` is the limit. -/
theorem leading_failures (remove : Nat → Option GoError) (limit : Nat) :
    ∃ k, k ≤ limit ∧ (∀ i, 1 ≤ i → i ≤ k → RemoveFails remove i) ∧
      (k < limit → ¬ RemoveFails remove (k + 1)) := by
  induction limit with
  | zero => exact ⟨0, le_refl _, fun i h1 h2 => by omega, fun h => by omega⟩
  | succ n ih =>
    obtain ⟨k, hk, hfail, hstop⟩ := ih
    by_cases hkn : k < n
    · exact ⟨k, by omega, hfail, fun _ => hstop hkn⟩
    · have hkeq : k = n := by omega
      subst hkeq
      by_cases hf : RemoveFails remove (k + 1)
      · refine ⟨k + 1, le_refl _, fun i h1 h2 => ?_, fun h => by omega⟩
        by_cases hi : i ≤ k
        · exact hfail i h1 hi
        · have : i = k + 1 := by omega
          rw [this]
          exact hf
      · exact ⟨k, by omega, hfail, fun _ => hf⟩

theorem sleptOf_append (xs ys : List Effect) : sleptOf (xs ++ ys) = sleptOf xs + sleptOf ys := by
  induction xs with
  | nil => simp [sleptOf]
  | cons x xs ih =>
    cases x <;> simp [sleptOf, ih]
    omega

theorem errorLogsOf_append (xs ys : List Effect) :
    errorLogsOf (xs ++ ys) = errorLogsOf xs ++ errorLogsOf ys := by
  simp [errorLogsOf]

theorem callsOf_append (xs ys : List Effect) : callsOf (xs ++ ys) = callsOf xs ++ callsOf ys := by
  simp [callsOf]

theorem sleptOf_steps (vm : runningFirecracker) (env : TeardownEnv) :
    sleptOf shutDownAnnounce = 0 ∧ sleptOf (stepGracefulStop env) = 0 ∧
    sleptOf (stepWait env) = 0 ∧ sleptOf (stepStopVMM env) = 0 ∧
    sleptOf (stepRemoveSocket vm env) = 0 ∧ sleptOf (stepCancel vm) = 0 := by
  refine ⟨by simp [shutDownAnnounce, sleptOf], ?_, ?_, ?_, ?_, ?_⟩
  · unfold stepGracefulStop
    cases env.shutdownErr <;> simp [sleptOf]
  · unfold stepWait
    cases env.waitErr with
    | none => simp [sleptOf]
    | some err => by_cases h : ignorableWaitError err = true <;> simp [sleptOf, h]
  · unfold stepStopVMM
    cases env.stopErr <;> simp [sleptOf]
  · unfold stepRemoveSocket
    cases env.removeSocket with
    | none => simp [sleptOf]
    | some err => by_cases h : err.isNotExist = true <;> simp [sleptOf, h]
  · unfold stepCancel
    cases vm.vmmCancel <;> simp [sleptOf]

theorem callsOf_steps (vm : runningFirecracker) (env : TeardownEnv) :
    callsOf shutDownAnnounce = [] ∧ callsOf (stepGracefulStop env) = [.machineShutdown] ∧
    callsOf (stepWait env) = [.machineWait] ∧ callsOf (stepStopVMM env) = [.machineStopVMM] ∧
    callsOf (stepRemoveSocket vm env) = [.osRemove vm.socketPath] := by
  refine ⟨by simp [shutDownAnnounce, callsOf], ?_, ?_, ?_, ?_⟩
  · unfold stepGracefulStop
    cases env.shutdownErr <;> simp [callsOf]
  · unfold stepWait
    cases env.waitErr with
    | none => simp [callsOf]
    | some err => by_cases h : ignorableWaitError err = true <;> simp [callsOf, h]
  · unfold stepStopVMM
    cases env.stopErr <;> simp [callsOf]
  · unfold stepRemoveSocket
    cases env.removeSocket with
    | none => simp [callsOf]
    | some err => by_cases h : err.isNotExist = true <;> simp [callsOf, h]

theorem callsOf_rootfsReport (last : Option GoError) : callsOf (rootfsReport last) = [] := by
  cases last <;> simp [callsOf, rootfsReport]

theorem stepRemoveRootfs_of_loop {vm : runningFirecracker} {env : TeardownEnv}
    {effects : List Effect} {last : Option GoError}
    (h : removeRootfsLoop (rootfsPathOf vm.vmmID) env.removeRootfs 31 1 none =
      some (effects, last)) :
    stepRemoveRootfs vm env = some (effects ++ rootfsReport last) := by
  unfold stepRemoveRootfs
  rw [h]

theorem shutDown_of_step {vm : runningFirecracker} {env : TeardownEnv} {step5 : List Effect}
    (h : stepRemoveRootfs vm env = some step5) :
    shutDown vm env = some (shutDownAnnounce ++ stepGracefulStop env ++ stepWait env ++
      stepStopVMM env ++ stepRemoveSocket vm env ++ step5 ++ stepCancel vm) := by
  unfold shutDown
  rw [h]

/-- C6. In the rootfs-removal loop of `shutDown`, when the first `N` removals
fail with an error other than missing-file: if `N < 30` and the next removal
succeeds or reports missing-file, the step makes exactly `N + 1` removal
attempts and logs no failure; if `N ≥ 30` it makes exactly 30 attempts and
logs, once, the rootfs-delete failure carrying the error of the 30th attempt.
In both cases `shutDown` returns, having gone on to the cancel step; its Go
signature has no result through which the failure could reach the caller. -/
theorem shutDown_rootfs_retries (vm : runningFirecracker) (env : TeardownEnv) (N : Nat)
    (hfail : ∀ i, 1 ≤ i → i ≤ N → RemoveFails env.removeRootfs i) :
    (N < 30 → ¬ RemoveFails env.removeRootfs (N + 1) →
      (stepRemoveRootfs vm env).map callsOf =
        some (List.replicate (N + 1) (.osRemove (rootfsPathOf vm.vmmID))) ∧
      (stepRemoveRootfs vm env).map errorLogsOf = some []) ∧
    (30 ≤ N → ∃ err, env.removeRootfs 30 = some err ∧ err.isNotExist = false ∧
      (stepRemoveRootfs vm env).map callsOf =
        some (List.replicate 30 (.osRemove (rootfsPathOf vm.vmmID))) ∧
      (stepRemoveRootfs vm env).map errorLogsOf =
        some [.log .error "Failed to delete firecracker rootfs after retries".toList
          (some err)]) ∧
    (∃ before step5, stepRemoveRootfs vm env = some step5 ∧
      shutDown vm env = some (before ++ step5 ++ stepCancel vm)) := by
  refine ⟨fun hN hthen => ?_, fun hN => ?_, ?_⟩
  · obtain ⟨effects, last, hrun, hcalls, hlogs, _, hnone, _⟩ :=
      removeRootfsLoop_first (rootfsPathOf vm.vmmID) env.removeRootfs N (by omega) hfail
        (fun _ => hthen)
    have hl := hnone hN
    subst hl
    rw [stepRemoveRootfs_of_loop hrun]
    have hmin : min (N + 1) 30 = N + 1 := by omega
    simp only [Option.map_some', callsOf_append, errorLogsOf_append, hcalls, hlogs, hmin,
      callsOf_rootfsReport, List.append_nil]
    constructor <;> trivial
  · obtain ⟨effects, last, hrun, hcalls, hlogs, _, _, hlast⟩ :=
      removeRootfsLoop_first (rootfsPathOf vm.vmmID) env.removeRootfs 30 (le_refl _)
        (fun i h1 h2 => hfail i h1 (by omega)) (fun h => by omega)
    obtain ⟨hl, err, herr, hne⟩ := hlast rfl
    refine ⟨err, herr, hne, ?_⟩
    rw [stepRemoveRootfs_of_loop hrun, hl, herr]
    simp only [Option.map_some', callsOf_append, errorLogsOf_append, hcalls, hlogs,
      callsOf_rootfsReport, List.append_nil, List.nil_append]
    constructor <;> trivial
  · obtain ⟨k, hk, hkfail, hkstop⟩ := leading_failures env.removeRootfs 30
    obtain ⟨effects, last, hrun, -⟩ :=
      removeRootfsLoop_first (rootfsPathOf vm.vmmID) env.removeRootfs k hk hkfail hkstop
    have h5 := stepRemoveRootfs_of_loop hrun
    exact ⟨_, _, h5, shutDown_of_step h5⟩

/-- C6 at a concrete input: a removal that fails twice and then succeeds is
attempted three times and no failure is logged. -/
theorem shutDown_rootfs_retries_witness :
    (∀ i, 1 ≤ i → i ≤ 2 → RemoveFails (failsThenOk 2).removeRootfs i) ∧
    (stepRemoveRootfs sampleVM (failsThenOk 2)).map callsOf =
      some (List.replicate 3 (.osRemove (rootfsPathOf sampleVM.vmmID))) ∧
    (stepRemoveRootfs sampleVM (failsThenOk 2)).map errorLogsOf = some [] :=
  have hfail : ∀ i, 1 ≤ i → i ≤ 2 → RemoveFails (failsThenOk 2).removeRootfs i :=
    fun i _ h2 => ⟨busyError, by simp [failsThenOk, h2], rfl⟩
  ⟨hfail, (shutDown_rootfs_retries sampleVM (failsThenOk 2) 2 hfail).1 (by decide)
    (by rintro ⟨err, h, _⟩; simp [failsThenOk] at h)⟩

/-- C8. For a handle that carries a cancel function (as every handle the
factory returns does) and for every combination of outcomes of the individual
steps, `shutDown` returns, and the calls it made are, in this order: the
graceful stop, the wait for exit, the force stop, the removal of the socket,
the removal of the rootfs (one block of `n` attempts, `1 ≤ n ≤ 30`), the
cancellation of the scope; each step once, none skipped. Its Go signature has
no result, so no failure is returned. -/
theorem shutDown_runs_all_steps (vm : runningFirecracker) (env : TeardownEnv) (scope : Nat)
    (hcancel : vm.vmmCancel = some scope) :
    ∃ all n, shutDown vm env = some all ∧ 1 ≤ n ∧ n ≤ 30 ∧
      callsOf all =
        [.machineShutdown, .machineWait, .machineStopVMM, .osRemove vm.socketPath] ++
          List.replicate n (.osRemove (rootfsPathOf vm.vmmID)) ++ [.cancel scope] := by
  obtain ⟨k, hk, hkfail, hkstop⟩ := leading_failures env.removeRootfs 30
  obtain ⟨effects, last, hrun, hcalls, -⟩ :=
    removeRootfsLoop_first (rootfsPathOf vm.vmmID) env.removeRootfs k hk hkfail hkstop
  have h5 := stepRemoveRootfs_of_loop hrun
  obtain ⟨c0, c1, c2, c3, c4⟩ := callsOf_steps vm env
  refine ⟨_, min (k + 1) 30, shutDown_of_step h5, by omega, by omega, ?_⟩
  have hreport : callsOf (rootfsReport last) = [] := callsOf_rootfsReport last
  have hc : callsOf (stepCancel vm) = [.cancel scope] := by
    simp [stepCancel, hcancel, callsOf]
  simp only [callsOf_append, c0, c1, c2, c3, c4, hcalls, hreport, hc]
  simp

/-- C8 at a concrete input: a handle from the factory, every step succeeding
but the rootfs removal, which fails once. -/
theorem shutDown_runs_all_steps_witness :
    sampleVM.vmmCancel = some 0 ∧
    ∃ all n, shutDown sampleVM (failsThenOk 1) = some all ∧ 1 ≤ n ∧ n ≤ 30 ∧
      callsOf all =
        [.machineShutdown, .machineWait, .machineStopVMM, .osRemove sampleVM.socketPath] ++
          List.replicate n (.osRemove (rootfsPathOf sampleVM.vmmID)) ++ [.cancel 0] :=
  ⟨rfl, shutDown_runs_all_steps sampleVM (failsThenOk 1) 0 rfl⟩

/-- C10. For every sequence of removal outcomes, with `k ≤ 30` the number of
removal attempts that failed with an error other than missing-file (the first
`k` attempts fail, and the loop ends after them): the time the rootfs-removal
loop of `shutDown` sleeps is the sum of `attempt × 100 ms` over the attempts
`1, ..., k`, that is `100 ms × k (k + 1) / 2`; it is all the time `shutDown`
sleeps; it is at most 46.5 s, and it is 46.5 s exactly when `k = 30`, that is
when all 30 attempts fail. -/
theorem shutDown_rootfs_sleep_total (vm : runningFirecracker) (env : TeardownEnv) :
    ∃ k loopEffects lastErr all,
      k ≤ 30 ∧ (∀ i, 1 ≤ i → i ≤ k → RemoveFails env.removeRootfs i) ∧
      (k < 30 → ¬ RemoveFails env.removeRootfs (k + 1)) ∧
      removeRootfsLoop (rootfsPathOf vm.vmmID) env.removeRootfs 31 1 none =
        some (loopEffects, lastErr) ∧
      shutDown vm env = some all ∧
      callsOf loopEffects =
        List.replicate (min (k + 1) 30) (.osRemove (rootfsPathOf vm.vmmID)) ∧
      sleptOf loopEffects = 100 * Millisecond * (List.range' 1 k).sum ∧
      (List.range' 1 k).sum = k * (k + 1) / 2 ∧
      sleptOf all = sleptOf loopEffects ∧
      sleptOf loopEffects ≤ 46500 * Millisecond ∧
      (sleptOf loopEffects = 46500 * Millisecond ↔ k = 30) ∧
      (k = 30 ↔ ∀ i, 1 ≤ i → i ≤ 30 → RemoveFails env.removeRootfs i) := by
  obtain ⟨k, hk, hkfail, hkstop⟩ := leading_failures env.removeRootfs 30
  obtain ⟨effects, last, hrun, hcalls, -, hslept, -⟩ :=
    removeRootfsLoop_first (rootfsPathOf vm.vmmID) env.removeRootfs k hk hkfail hkstop
  have h5 := stepRemoveRootfs_of_loop hrun
  have hsum : 2 * (List.range' 1 k).sum = k * (k + 1) := by
    have := range'_sum_closed k 1
    nlinarith [this]
  have hclosed : (List.range' 1 k).sum = k * (k + 1) / 2 := by omega
  have hbound : (List.range' 1 k).sum ≤ 465 := by nlinarith [hsum]
  have hms : 0 < Millisecond := by decide
  obtain ⟨s0, s1, s2, s3, s4, s6⟩ := sleptOf_steps vm env
  refine ⟨k, effects, last, _, hk, hkfail, hkstop, hrun, shutDown_of_step h5, hcalls, hslept,
    hclosed, ?_, ?_, ?_, ?_⟩
  · have hreport : sleptOf (rootfsReport last) = 0 := by
      cases last <;> simp [sleptOf, rootfsReport]
    simp only [sleptOf_append, s0, s1, s2, s3, s4, s6, hreport]
    omega
  · rw [hslept]
    calc 100 * Millisecond * (List.range' 1 k).sum ≤ 100 * Millisecond * 465 :=
          Nat.mul_le_mul_left _ hbound
      _ = 46500 * Millisecond := by ring
  · rw [hslept]
    constructor
    · intro h
      have h465 : (List.range' 1 k).sum = 465 := by
        have : 100 * Millisecond * (List.range' 1 k).sum = 100 * Millisecond * 465 := by
          rw [h]; ring
        exact Nat.eq_of_mul_eq_mul_left (by positivity) this
      by_contra hne
      have hlt : k ≤ 29 := by omega
      nlinarith [hsum]
    · rintro rfl
      have : (List.range' 1 30).sum = 465 := by omega
      rw [this]
      ring
  · constructor
    · rintro rfl
      exact hkfail
    · intro hall
      by_contra hne
      exact hkstop (by omega) (hall (k + 1) (by omega) (by omega))

/-! ## C4, C5: the pool filler -/

/-- Each transition keeps the account of the live VMs: every VM created is
shut down, in the buffer, in the filler's hand or held by a dispatcher; and
the buffer never exceeds the capacity, which never changes. -/
theorem step_live {s s1 : PoolSys} {a : Action} (h : step s a = some s1)
    (hinv : s.created.length = s.fillerShut.length + s.dispatcherShut.length + s.pool.length +
      fillerInHand s + s.holding.length ∧ s.pool.length ≤ s.cap) :
    (s1.created.length = s1.fillerShut.length + s1.dispatcherShut.length + s1.pool.length +
      fillerInHand s1 + s1.holding.length ∧ s1.pool.length ≤ s1.cap) ∧ s1.cap = s.cap := by
  obtain ⟨hlen, hcap⟩ := hinv
  cases a <;> simp only [step, fillLanguageVMPool, dispatcherStep] at h
  case cancel =>
    simp only [Option.some.injEq] at h
    subst h
    exact ⟨⟨by simpa [fillerInHand] using hlen, hcap⟩, rfl⟩
  case createOk vm =>
    split at h
    · split at h
      · exact absurd h (by simp)
      · rename_i hf hc
        simp only [Option.some.injEq] at h
        subst h
        simp only [fillerInHand, hf] at hlen
        refine ⟨⟨?_, hcap⟩, rfl⟩
        simp only [fillerInHand, List.length_append, List.length_singleton]
        omega
    · exact absurd h (by simp)
  case createErr =>
    split at h
    · split at h
      · exact absurd h (by simp)
      · simp only [Option.some.injEq] at h
        subst h
        exact ⟨⟨hlen, hcap⟩, rfl⟩
    · exact absurd h (by simp)
  case fillerExit =>
    split at h
    · split at h
      · rename_i hf hc
        simp only [Option.some.injEq] at h
        subst h
        simp only [fillerInHand, hf] at hlen
        exact ⟨⟨by simpa [fillerInHand] using hlen, hcap⟩, rfl⟩
      · exact absurd h (by simp)
    · exact absurd h (by simp)
  case bootOk =>
    split at h
    · rename_i vm hf
      simp only [Option.some.injEq] at h
      subst h
      simp only [fillerInHand, hf] at hlen
      exact ⟨⟨by simpa [fillerInHand] using hlen, hcap⟩, rfl⟩
    · exact absurd h (by simp)
  case bootErr =>
    split at h
    · rename_i vm hf
      simp only [Option.some.injEq] at h
      subst h
      simp only [fillerInHand, hf] at hlen
      refine ⟨⟨?_, hcap⟩, rfl⟩
      simp only [fillerInHand, List.length_append, List.length_singleton]
      omega
    · exact absurd h (by simp)
  case offerSend =>
    split at h
    · rename_i vm hf
      split at h
      · rename_i hroom
        simp only [Option.some.injEq] at h
        subst h
        simp only [fillerInHand, hf] at hlen
        refine ⟨⟨?_, ?_⟩, rfl⟩
        · simp only [fillerInHand, List.length_append, List.length_singleton]
          omega
        · simp only [List.length_append, List.length_singleton]
          omega
      · exact absurd h (by simp)
    · exact absurd h (by simp)
  case offerHandoff =>
    split at h
    · rename_i vm hf
      split at h
      · simp only [Option.some.injEq] at h
        subst h
        simp only [fillerInHand, hf] at hlen
        refine ⟨⟨?_, hcap⟩, rfl⟩
        simp only [fillerInHand, List.length_append, List.length_singleton]
        omega
      · exact absurd h (by simp)
    · exact absurd h (by simp)
  case offerCancel =>
    split at h
    · rename_i vm hf
      split at h
      · simp only [Option.some.injEq] at h
        subst h
        simp only [fillerInHand, hf] at hlen
        refine ⟨⟨?_, hcap⟩, rfl⟩
        simp only [fillerInHand, List.length_append, List.length_singleton]
        omega
      · exact absurd h (by simp)
    · exact absurd h (by simp)
  case jobArrive =>
    simp only [Option.some.injEq] at h
    subst h
    exact ⟨⟨by simpa [fillerInHand] using hlen, hcap⟩, rfl⟩
  case take =>
    split at h
    · rename_i vm rest hp
      split at h
      · simp only [Option.some.injEq] at h
        subst h
        rw [hp] at hlen hcap
        simp only [List.length_cons] at hlen hcap
        refine ⟨⟨?_, by simp only []; omega⟩, rfl⟩
        simp only [fillerInHand, List.length_append, List.length_singleton] at hlen ⊢
        omega
      · exact absurd h (by simp)
    · exact absurd h (by simp)
  case abort =>
    split at h
    · simp only [Option.some.injEq] at h
      subst h
      exact ⟨⟨by simpa [fillerInHand] using hlen, hcap⟩, rfl⟩
    · exact absurd h (by simp)
  case release vm =>
    split at h
    · rename_i hmem
      simp only [Option.some.injEq] at h
      subst h
      have hpos : 0 < s.holding.length := List.length_pos_of_mem hmem
      refine ⟨⟨?_, hcap⟩, rfl⟩
      simp only [fillerInHand, List.length_append, List.length_singleton,
        List.length_erase_of_mem hmem] at hlen ⊢
      omega
    · exact absurd h (by simp)

/-- A property kept by every transition is kept by every run. -/
theorem run_induction (P : PoolSys → Prop)
    (hstep : ∀ s a s1, step s a = some s1 → P s → P s1) :
    ∀ (acts : List Action) (s s1 : PoolSys), run acts s = some s1 → P s → P s1 := by
  intro acts
  induction acts with
  | nil =>
    intro s s1 h hp
    simp only [run, Option.some.injEq] at h
    subst h
    exact hp
  | cons a rest ih =>
    intro s s1 h hp
    simp only [run] at h
    cases hs : step s a with
    | none => simp [hs] at h
    | some s2 =>
      rw [hs] at h
      exact ih s2 s1 h (hstep s a s2 hs hp)

theorem run_live (cap : Nat) (acts : List Action) (s : PoolSys)
    (h : run acts (startState cap) = some s) :
    (s.created.length = s.fillerShut.length + s.dispatcherShut.length + s.pool.length +
      fillerInHand s + s.holding.length ∧ s.pool.length ≤ s.cap) ∧ s.cap = cap :=
  run_induction
    (fun s => (s.created.length = s.fillerShut.length + s.dispatcherShut.length +
      s.pool.length + fillerInHand s + s.holding.length ∧ s.pool.length ≤ s.cap) ∧ s.cap = cap)
    (fun _ _ _ hs hp => ⟨(step_live hs hp.1).1, (step_live hs hp.1).2.trans hp.2⟩)
    acts (startState cap) s h (by simp [startState, fillerInHand])

theorem fillerInHand_le_one (s : PoolSys) : fillerInHand s ≤ 1 := by
  unfold fillerInHand
  cases s.filler <;> simp

/-- The counterexample to C5 as stated: capacity 1 and no job. The filler
fills the pool with one VM, creates a second one and holds it: two live VMs,
against a bound `capacity + in-flight dispatchers` of one. -/
theorem live_vms_counterexample :
    (run [.createOk sampleVM, .bootOk, .offerSend, .createOk sampleVM2] (startState 1)).map
      (fun s => (liveVMs s, s.cap + inFlight s)) = some (2, 1) := by
  decide

/-- C5 (amended). In every reachable state of one language's filler, pool and
dispatchers, the live VMs (created and not yet shut down) are those in the
pool, at most `capacity` of them, the one the filler may have in hand, and
those held by dispatchers; so their number is at most
`capacity + 1 + in-flight dispatchers`, and at most `capacity + 1` when no
dispatcher is in flight. -/
theorem live_vms_bound (cap : Nat) (acts : List Action) (s : PoolSys)
    (h : run acts (startState cap) = some s) :
    liveVMs s = s.pool.length + fillerInHand s + s.holding.length ∧
    s.pool.length ≤ cap ∧ fillerInHand s ≤ 1 ∧
    liveVMs s ≤ cap + 1 + inFlight s ∧
    (inFlight s = 0 → liveVMs s ≤ cap + 1) := by
  obtain ⟨⟨hlen, hpool⟩, hcap⟩ := run_live cap acts s h
  have hhand := fillerInHand_le_one s
  rw [hcap] at hpool
  have hlive : liveVMs s = s.pool.length + fillerInHand s + s.holding.length := by
    unfold liveVMs
    omega
  refine ⟨hlive, hpool, hhand, ?_, fun h0 => ?_⟩
  · unfold inFlight
    omega
  · unfold inFlight at h0
    omega

/-- C5 (amended) at a concrete input: capacity 1, one job; the VM handed to
the dispatcher and the next one in the filler's hand are both live. -/
theorem live_vms_bound_witness :
    run [.jobArrive, .createOk sampleVM, .bootOk, .offerHandoff, .createOk sampleVM2]
      (startState 1) = some stateAfterHandoff ∧
    liveVMs stateAfterHandoff = 2 ∧
    liveVMs stateAfterHandoff ≤ 1 + 1 + inFlight stateAfterHandoff :=
  have h : run [.jobArrive, .createOk sampleVM, .bootOk, .offerHandoff, .createOk sampleVM2]
      (startState 1) = some stateAfterHandoff := by decide
  ⟨h, by decide, (live_vms_bound 1 _ stateAfterHandoff h).2.2.2.1⟩

/-! ## C7: the boot probe -/

/-- C7, the code at the failing input: the health request answers 503 and
then 200, the context is never done. Between the two requests the probe
sleeps one second inside the `!= 200` branch and one more second after the
`if`: 2 s, not 1 s. -/
theorem waitForVMToBoot_non200_delay :
    waitForVMToBoot (fun _ => false) notReadyOnce deadlineExceeded sampleVM.ip 2 0 =
      some ([.httpGet sampleVM.ip, .sleep Second, .log .info "VM not ready yet".toList none,
        .sleep Second, .httpGet sampleVM.ip, .log .info "VM agent ready".toList none], none) := by
  decide

/-- The sibling path: after a transport error the probe sleeps one second
before the next request. -/
theorem waitForVMToBoot_transport_delay :
    (waitForVMToBoot (fun _ => false) unreachableOnce deadlineExceeded sampleVM.ip 2 0).map
      (fun r => (callsOf r.1, sleptOf r.1)) =
      some ([.httpGet sampleVM.ip, .httpGet sampleVM.ip], Second) := by
  decide

/-- In any round in which the context is not done and the answer is a status
other than 200, the probe sleeps twice one second before the next round. -/
theorem waitForVMToBoot_non200_round (ctxDone : Nat → Bool) (get : Nat → ProbeResult)
    (ctxErr : GoError) (ip : GoString) (fuel round : Nat) (code : Int)
    (hctx : ctxDone round = false) (hget : get round = .status code) (hcode : code ≠ 200) :
    waitForVMToBoot ctxDone get ctxErr ip (fuel + 1) round =
      (waitForVMToBoot ctxDone get ctxErr ip fuel (round + 1)).map fun r =>
        (.httpGet ip :: .sleep Second :: .log .info "VM not ready yet".toList none ::
          .sleep Second :: r.1, r.2) := by
  rw [waitForVMToBoot]
  simp only [hctx, hget, hcode]
  cases waitForVMToBoot ctxDone get ctxErr ip fuel (round + 1) <;> simp [hcode]

/-! ## C11: what a failed create leaves on the host -/

theorem getRootfsPath_ne_rootfsPathOf (language vmmID : GoString) :
    getRootfsPath language ≠ rootfsPathOf vmmID := by
  intro h
  have hdir := congrArg Path.dir h
  revert hdir
  simp only [getRootfsPath, filepathJoin, rootfsPathOf]
  decide

/-- C11, the code at the failing input: the host holds the image of `"go"`,
no per-VM rootfs, and no VMM binary at the fallback path. The create copies
the image to `/tmp/rootfs-vm1.ext4`, fails on the `os.Stat` of the binary and
returns the binary-missing error; the per-VM rootfs it wrote is still on the
host, with the whole image in it, and no effect of the call removes it. -/
theorem createAndStartVMForLanguage_leaves_rootfs :
    hostWithGoImage (rootfsPathOf binaryMissingEnv.vmmID) = none ∧
    (createAndStartVMForLanguage hostWithGoImage binaryMissingEnv langGo).result =
      .error (.binaryMissing defaultFirecrackerBinary errStatNotExist) ∧
    (createAndStartVMForLanguage hostWithGoImage binaryMissingEnv langGo).fs
      (rootfsPathOf binaryMissingEnv.vmmID) = some "ext4 image".toList ∧
    (createAndStartVMForLanguage hostWithGoImage binaryMissingEnv langGo).effects = [] := by
  refine ⟨by decide, ?_, ?_, ?_⟩ <;> rfl

/-- A copy that returns nil has written the whole source into the
destination and touched nothing else. -/
theorem copyFile_ok {fs fs1 : FileSys} {env : FactoryEnv} {src dst : Path}
    (h : copyFile fs env src dst = (none, fs1)) (hne : src ≠ dst) :
    ∃ content, fs src = some content ∧ fs1 = writeFile fs dst content := by
  unfold copyFile at h
  cases hsrc : fs src with
  | none => simp [hsrc] at h
  | some content =>
    refine ⟨content, rfl, ?_⟩
    simp only [hsrc] at h
    cases ho : env.openErr with
    | some err => simp [ho] at h
    | none =>
      cases hc : env.createErr with
      | some err => simp [ho, hc] at h
      | none =>
        cases hcp : env.copyErr with
        | some r => simp [ho, hc, hcp] at h
        | none =>
          simp only [ho, hc, hcp, Prod.mk.injEq] at h
          rw [← h.2]
          simp [writeFile, hne, hsrc]

/-- Whatever its outcome, a copy touches no file but its destination. -/
theorem copyFile_frame (fs : FileSys) (env : FactoryEnv) (src dst p : Path) (hp : p ≠ dst) :
    (copyFile fs env src dst).2 p = fs p := by
  unfold copyFile
  cases fs src with
  | none => rfl
  | some content =>
    cases env.openErr with
    | some err => rfl
    | none =>
      cases env.createErr with
      | some err => rfl
      | none =>
        cases env.copyErr with
        | some r => simp [writeFile, hp]
        | none => simp [writeFile, hp]

/-- Every failure of a create after the copy (the binary missing, not
stat-able, a directory or not executable, the machine not created or not
started) leaves the per-VM rootfs on the host, holding the whole image. -/
theorem createAndStartVMForLanguage_error_after_copy (fs : FileSys) (env : FactoryEnv)
    (language : GoString) (e : CreateError)
    (h : (createAndStartVMForLanguage fs env language).result = .error e)
    (hfound : ∀ l b, e ≠ .rootfsNotFound l b) (hcopied : ∀ l err, e ≠ .prepareRootfs l err) :
    ∃ content, fs (getRootfsPath language) = some content ∧
      (createAndStartVMForLanguage fs env language).fs (rootfsPathOf env.vmmID) =
        some content := by
  unfold createAndStartVMForLanguage at h ⊢
  cases hbase : fs (getRootfsPath language) with
  | none =>
    simp only [hbase, Except.error.injEq] at h
    exact absurd h.symm (hfound _ _)
  | some img =>
    simp only [hbase] at h ⊢
    rcases hcopy : copyFile fs env (getRootfsPath language) (rootfsPathOf env.vmmID) with
      ⟨cerr, fs1⟩
    cases cerr with
    | some err =>
      simp only [hcopy, Except.error.injEq] at h
      exact absurd h.symm (hcopied _ _)
    | none =>
      obtain ⟨content, hsrc, hfs1⟩ := copyFile_ok hcopy (getRootfsPath_ne_rootfsPathOf _ _)
      rw [hbase] at hsrc
      cases hsrc
      have hfile : fs1 (rootfsPathOf env.vmmID) = some img := by
        rw [hfs1]
        simp [writeFile]
      refine ⟨img, rfl, ?_⟩
      simp only []
      repeat' split
      all_goals exact hfile

/-- A create that fails because the image of the language is missing leaves
the host files as they were. -/
theorem createAndStartVMForLanguage_rootfsNotFound (fs : FileSys) (env : FactoryEnv)
    (language : GoString) (h : fs (getRootfsPath language) = none) :
    (createAndStartVMForLanguage fs env language).result =
      .error (.rootfsNotFound language (getRootfsPath language)) ∧
    (createAndStartVMForLanguage fs env language).fs = fs := by
  unfold createAndStartVMForLanguage
  simp [h]

/-- A handle the factory returns carries the id it minted, the socket path of
that id, and the cancel function of the scope made for it. -/
theorem createAndStartVMForLanguage_handle (fs : FileSys) (env : FactoryEnv)
    (language : GoString) (vm : runningFirecracker)
    (h : (createAndStartVMForLanguage fs env language).result = .ok vm) :
    vm.vmmID = env.vmmID ∧ vm.vmmCancel = some env.scope ∧
    vm.socketPath = getSocketPath env.tempDir env.pid env.vmmID := by
  unfold createAndStartVMForLanguage at h
  simp only [] at h
  repeat' split at h
  all_goals first
    | (simp only [Except.ok.injEq] at h; subst h; exact ⟨rfl, rfl, rfl⟩)
    | (exact absurd h (by simp))

end Ignis
